import Mathlib

/-!
# Circuit evaluation engine — shallow embedding

A Lean embedding of the circuit evaluation engine of this repository
(`evaluateCircuit`, `detectCycleConnections`, `wouldCreateCycle`) together
with the data model from `types/circuit.ts`.

Modelling conventions:
* JavaScript objects used as string-keyed maps (`Record<string, boolean[]>`)
  are modelled as association lists (`List (String × List Bool)`); assignment
  `m[k] = v` replaces the value in place when the key is present (preserving
  key order, as JS does) and appends otherwise; lookup returns the first match.
* JavaScript `Set` iteration order is insertion order, modelled with a
  first-occurrence deduplication (`jsDedup`).
* The in-degree counters are `Int`, since JS numbers may be decremented
  below zero by the algorithm on degenerate inputs.
* The two unbounded loops of the source — the Kahn queue loop and the BFS
  loop of `wouldCreateCycle` — are given an explicit fuel that provably
  dominates their iteration count (each pop either consumes an element of the
  initial queue or a unit of positive in-degree / an unvisited vertex), so the
  fuel branch is never taken; proofs about the loops carry this bound.
* The recursion of `evaluateCircuit` into module bodies has no termination
  guarantee in the source (a self-referencing module overflows the host
  stack).  It is modelled with a fuel parameter counting the allowed module
  nesting depth: `evaluateCircuitF fuel` returns `none` exactly when the
  recursion would exceed `fuel` nested module expansions; every other code
  path is total.  "The evaluation terminates" is rendered as "some finite
  fuel suffices (and the result is then independent of the fuel)".
* Layout-only node attributes (`x`, `y`, LED styling, rotation, pin names)
  are never read by the engine and are omitted from the node structure.
* The engine also handles a `BUTTON` node kind (used by the UI) that is
  missing from the declared `GateType` union; it is included here since the
  evaluator has a case for it.  The `default:` case of the evaluator's
  `switch` is unreachable in this embedding because the inductive `GateType`
  is closed.
-/

inductive GateType where
  | AND | OR | NOT | INPUT | OUTPUT | LED | MODULE | PINBAR | BUTTON
deriving DecidableEq, Repr

inductive PinBarMode where
  | input | output
deriving DecidableEq, Repr

structure CircuitNode where
  id : String
  type : GateType
  inputCount : Nat
  outputCount : Nat
  inputValue : Option Bool := none
  moduleId : Option String := none
  pinBarMode : Option PinBarMode := none
  pinBarValues : Option (List Bool) := none
deriving DecidableEq, Repr

structure Connection where
  id : String
  fromNodeId : String
  fromPinIndex : Nat
  toNodeId : String
  toPinIndex : Nat
deriving DecidableEq, Repr

structure ModuleDefinition where
  id : String
  name : String
  nodes : List CircuitNode
  connections : List Connection
  inputNodeIds : List String
  outputNodeIds : List String
  inputCount : Nat
  outputCount : Nat
deriving DecidableEq, Repr

/-- The evaluation result map `Record<string, boolean[]>`. -/
abbrev Outputs := List (String × List Bool)

/-- JS object property write `m[k] = v`: replace the binding in place when
the key is present (JS objects hold at most one binding per key, and every
map the engine builds starts empty and is only modified through this
operation), append a new binding at the end otherwise. -/
def setOut : Outputs → String → List Bool → Outputs
  | [], k, v => [(k, v)]
  | p :: rest, k, v => if p.1 = k then (k, v) :: rest else p :: setOut rest k v

/-- JS object property read `m[k]` (first binding wins; keys are unique in
all maps the engine builds). -/
def getOut (m : Outputs) (k : String) : Option (List Bool) := m.lookup k

/-- First-occurrence deduplication: the element order of a JS `Set` built by
repeated `add`, and the key order of a JS object built by repeated writes. -/
def jsDedup (l : List String) : List String :=
  l.foldl (fun acc x => if x ∈ acc then acc else acc ++ [x]) []

/-- Both endpoints of the connection are present in the node list (the guard
`outEdges[conn.fromNodeId] && inEdges[conn.toNodeId]` of the source; dangling
connections are silently dropped). -/
def presentBoth (nodes : List CircuitNode) (c : Connection) : Bool :=
  nodes.any (fun n => n.id == c.fromNodeId) && nodes.any (fun n => n.id == c.toNodeId)

/-- Forward adjacency `outEdges[a]` as built by `evaluateCircuit` (a `Set`,
hence deduplicated in insertion order). -/
def outAdj (nodes : List CircuitNode) (connections : List Connection) (a : String) :
    List String :=
  jsDedup ((connections.filter
    (fun c => presentBoth nodes c && c.fromNodeId == a)).map (fun c => c.toNodeId))

/-- Backward adjacency `inEdges[x]`. -/
def inAdj (nodes : List CircuitNode) (connections : List Connection) (x : String) :
    List String :=
  jsDedup ((connections.filter
    (fun c => presentBoth nodes c && c.toNodeId == x)).map (fun c => c.fromNodeId))

/-- One step of the inner `for (const next of outEdges[id])` loop:
decrement the successor's in-degree and enqueue it if the count hits zero. -/
def succStep (p : (String → Int) × List String) (nxt : String) :
    (String → Int) × List String :=
  let d := p.1 nxt - 1
  (fun x => if x = nxt then d else p.1 x, if d = 0 then p.2 ++ [nxt] else p.2)

/-- Process all successors of a popped node. -/
def processSuccs (succs : List String) (p : (String → Int) × List String) :
    (String → Int) × List String :=
  succs.foldl succStep p

/-- The Kahn queue loop shared by `evaluateCircuit` and
`detectCycleConnections`: pop from the front, append to the output sequence,
decrement successors, enqueue those reaching zero.  `fuel` dominates the
iteration count (see `kahnLoop_master`); the `0` branch is never taken for
the fuel the callers supply. -/
def kahnLoop (adj : String → List String) :
    Nat → List String → (String → Int) → List String → List String
  | 0, _, _, sorted => sorted
  | _ + 1, [], _, sorted => sorted
  | fuel + 1, id :: rest, inDeg, sorted =>
      let st := processSuccs (adj id) (inDeg, rest)
      kahnLoop adj fuel st.2 st.1 (sorted ++ [id])

/-- The topological sort phase of `evaluateCircuit` (lines 25–40): in-degrees
are the sizes of the deduplicated backward-edge sets; the initial queue takes
the nodes of in-degree zero in node-list order. -/
def kahnSorted (nodes : List CircuitNode) (connections : List Connection) : List String :=
  let inDeg0 : String → Int := fun x => ((inAdj nodes connections x).length : Int)
  let queue0 := (nodes.map (fun n => n.id)).filter (fun x => inDeg0 x == 0)
  kahnLoop (outAdj nodes connections) (nodes.length + connections.length + 1)
    queue0 inDeg0 []

/-- The "collect cycle nodes" loop (lines 42–49): walk the node list, and
append every node whose id is not yet in the sequence both to the sequence
and to the cycle list.  Returns (full evaluation sequence, cycle node ids). -/
def collectCycle (sorted0 : List String) (nodes : List CircuitNode) :
    List String × List String :=
  nodes.foldl
    (fun (p : List String × List String) n =>
      if n.id ∈ p.1 then p else (p.1 ++ [n.id], p.2 ++ [n.id]))
    (sorted0, [])

/-- The full evaluation sequence built inside `evaluateCircuit`: Kahn output
followed by the appended residual cycle nodes. -/
def evalSequence (nodes : List CircuitNode) (connections : List Connection) : List String :=
  (collectCycle (kahnSorted nodes connections) nodes).1

/-- The residual cycle node ids of `evaluateCircuit`. -/
def cycleNodeIds (nodes : List CircuitNode) (connections : List Connection) : List String :=
  (collectCycle (kahnSorted nodes connections) nodes).2

/-- Reading one input pin (lines 72–81): the first connection in list order
targeting `(nodeId, i)` wins; a cycle-node source is always read from the
frozen snapshot; an unconnected pin reads `false`. -/
def readPinValue (connections : List Connection) (cycleSet : List String)
    (source frozen : Outputs) (nodeId : String) (i : Nat) : Bool :=
  match connections.find? (fun c => c.toNodeId == nodeId && c.toPinIndex == i) with
  | some conn =>
      let readFrom := if conn.fromNodeId ∈ cycleSet then frozen else source
      (((getOut readFrom conn.fromNodeId).getD []).getD conn.fromPinIndex false)
  | none => false

/-- Flatten the enclosing circuit's input values into the module's input
slots (lines 119–134): walking `inputNodeIds`, an `INPUT` terminal consumes
one slot, any `PINBAR` terminal consumes `outputCount` slots, a missing or
other-kind node consumes none. -/
def buildInputsStep (moduleDef : ModuleDefinition) (inputValues : List Bool)
    (acc : List Bool × Nat) (inId : String) : List Bool × Nat :=
  match moduleDef.nodes.find? (fun n => n.id == inId) with
  | none => acc
  | some inNode =>
      if inNode.type = GateType.INPUT then
        (acc.1 ++ [inputValues.getD acc.2 false], acc.2 + 1)
      else if inNode.type = GateType.PINBAR then
        (acc.1 ++ (List.range inNode.outputCount).map
            (fun pi => inputValues.getD (acc.2 + pi) false),
         acc.2 + inNode.outputCount)
      else acc

def buildModuleInputs (moduleDef : ModuleDefinition) (inputValues : List Bool) :
    List Bool :=
  (moduleDef.inputNodeIds.foldl (buildInputsStep moduleDef inputValues) ([], 0)).1

/-- The per-terminal offset recomputation of lines 141–146 / 153–158: sum the
widths of the first `idx` entries of `inputNodeIds`, where a `PINBAR` node
counts `outputCount` and anything else — including a missing node — counts 1. -/
def actualInputIdx (moduleDef : ModuleDefinition) (idx : Nat) : Nat :=
  ((moduleDef.inputNodeIds.take idx).map
    (fun inId =>
      match moduleDef.nodes.find? (fun n => n.id == inId) with
      | some p => if p.type = GateType.PINBAR then p.outputCount else 1
      | none => 1)).sum

/-- The working copy of the module's internal nodes (lines 136–164): input
terminals get their held value / held vector overwritten from the flattened
slot vector. -/
def internalNodesOf (moduleDef : ModuleDefinition) (mIV : List Bool) :
    List CircuitNode :=
  moduleDef.nodes.map (fun n =>
    if n.type = GateType.INPUT then
      match moduleDef.inputNodeIds.findIdx? (fun x => x == n.id) with
      | some idx =>
          { n with inputValue := some (mIV.getD (actualInputIdx moduleDef idx) false) }
      | none => n
    else if n.type = GateType.PINBAR ∧ n.pinBarMode.getD PinBarMode.input = PinBarMode.input then
      match moduleDef.inputNodeIds.findIdx? (fun x => x == n.id) with
      | some idx =>
          { n with pinBarValues := some ((List.range n.outputCount).map
              (fun pi => mIV.getD (actualInputIdx moduleDef idx + pi) false)) }
      | none => n
    else n)

/-- Assembling the module's external output vector (lines 168–184): walk
`outputNodeIds`; an output-mode `PINBAR` contributes, per input pin, the
value of the internal source wired to that pin (or `false`); anything else
contributes bit 0 of its own internal result. -/
def moduleResultStep (moduleDef : ModuleDefinition) (internalOutputs : Outputs)
    (acc : List Bool) (outId : String) : List Bool :=
  match moduleDef.nodes.find? (fun n => n.id == outId) with
  | some outNd =>
      if outNd.type = GateType.PINBAR ∧ outNd.pinBarMode = some PinBarMode.output then
        acc ++ (List.range outNd.inputCount).map (fun pi =>
          match moduleDef.connections.find?
              (fun c => c.toNodeId == outId && c.toPinIndex == pi) with
          | some conn =>
              ((getOut internalOutputs conn.fromNodeId).getD []).getD conn.fromPinIndex false
          | none => false)
      else acc ++ [((getOut internalOutputs outId).getD []).getD 0 false]
  | none => acc ++ [((getOut internalOutputs outId).getD []).getD 0 false]

def moduleResult (moduleDef : ModuleDefinition) (internalOutputs : Outputs) : List Bool :=
  moduleDef.outputNodeIds.foldl (moduleResultStep moduleDef internalOutputs) []

/-- The `MODULE` case of the evaluator (lines 115–190), with the recursive
call abstracted as `recEval` (instantiated with `evaluateCircuitF fuel`). -/
def moduleNodeOutput
    (recEval : List CircuitNode → List Connection → List ModuleDefinition →
      Option Outputs → Option Outputs)
    (modules : List ModuleDefinition) (node : CircuitNode) (inputValues : List Bool) :
    Option (List Bool) :=
  match node.moduleId.bind (fun mid => modules.find? (fun m => m.id == mid)) with
  | some moduleDef =>
      let internalNodes := internalNodesOf moduleDef (buildModuleInputs moduleDef inputValues)
      (recEval internalNodes moduleDef.connections modules none).map (moduleResult moduleDef)
  | none => some (List.replicate node.outputCount false)

/-- The `switch (node.type)` of the evaluator (lines 83–193), computing the
node's output vector from the read state.  `none` only when a nested module
evaluation runs out of fuel. -/
def nodeValueF
    (recEval : List CircuitNode → List Connection → List ModuleDefinition →
      Option Outputs → Option Outputs)
    (connections : List Connection) (modules : List ModuleDefinition)
    (cycleSet : List String) (source frozen : Outputs)
    (nodeId : String) (node : CircuitNode) : Option (List Bool) :=
  let inputValues := (List.range node.inputCount).map
    (readPinValue connections cycleSet source frozen nodeId)
  match node.type with
  | GateType.INPUT => some [node.inputValue.getD false]
  | GateType.BUTTON => some [node.inputValue.getD false]
  | GateType.AND =>
      some [decide (inputValues.length ≥ 2) && (inputValues.getD 0 false
        && inputValues.getD 1 false)]
  | GateType.OR =>
      some [decide (inputValues.length ≥ 2) && (inputValues.getD 0 false
        || inputValues.getD 1 false)]
  | GateType.NOT => some [!(inputValues.getD 0 false)]
  | GateType.OUTPUT => some [inputValues.getD 0 false]
  | GateType.LED => some [inputValues.getD 0 false]
  | GateType.PINBAR =>
      if node.pinBarMode.getD PinBarMode.input = PinBarMode.input then
        let vals := node.pinBarValues.getD []
        some ((List.range node.outputCount).map (fun i => vals.getD i false))
      else some (inputValues.take node.inputCount)
  | GateType.MODULE => moduleNodeOutput recEval modules node inputValues

/-- The inner `evaluateNode` closure (lines 64–194): look the node up, read
inputs from the live map (acyclic pass) or the frozen snapshot (cycle pass),
and write the computed vector under the node's id.  A missing node is a
silent no-op. -/
def evalNodeF
    (recEval : List CircuitNode → List Connection → List ModuleDefinition →
      Option Outputs → Option Outputs)
    (nodes : List CircuitNode) (connections : List Connection)
    (modules : List ModuleDefinition) (cycleSet : List String)
    (frozen : Outputs) (isCyclePass : Bool)
    (outputs : Outputs) (nodeId : String) : Option Outputs :=
  match nodes.find? (fun n => n.id == nodeId) with
  | none => some outputs
  | some node =>
      let source := if isCyclePass then frozen else outputs
      (nodeValueF recEval connections modules cycleSet source frozen nodeId node).map
        (fun v => setOut outputs nodeId v)

/-- Run a pass: fold a node-evaluation step over a list of node ids,
propagating fuel exhaustion. -/
def runIds (step : Outputs → String → Option Outputs) :
    List String → Outputs → Option Outputs
  | [], outs => some outs
  | id :: rest, outs => (step outs id).bind (fun o => runIds step rest o)

/-- `evaluateCircuit` (lines 3–216) with explicit module-recursion fuel:
topological sort, cycle collection, seeding of cycle nodes from
`previousOutputs`, the acyclic pass against live values, the frozen-snapshot
refresh, and the cycle pass against the snapshot. -/
def evaluateCircuitF :
    Nat → List CircuitNode → List Connection → List ModuleDefinition →
    Option Outputs → Option Outputs
  | 0, _, _, _, _ => none
  | fuel + 1, nodes, connections, modules, previousOutputs =>
      let recEval := fun ns cs ms po => evaluateCircuitF fuel ns cs ms po
      let sorted := evalSequence nodes connections
      let cycleIds := cycleNodeIds nodes connections
      let outputs0 : Outputs :=
        match previousOutputs with
        | none => []
        | some prev =>
            cycleIds.foldl
              (fun outs nodeId =>
                match getOut prev nodeId with
                | some v => setOut outs nodeId v
                | none => outs) []
      let acyclicIds := sorted.filter (fun id => !(cycleIds.contains id))
      let pass1 := runIds
        (evalNodeF recEval nodes connections modules cycleIds outputs0 false)
        acyclicIds outputs0
      pass1.bind (fun outs1 =>
        let frozen1 := acyclicIds.foldl
          (fun fr id =>
            match getOut outs1 id with
            | some v => setOut fr id v
            | none => fr) outputs0
        runIds (evalNodeF recEval nodes connections modules cycleIds frozen1 true)
          cycleIds outs1)

/-- The in-degree map of `detectCycleConnections` (lines 229–234): counted
per connection (not per distinct predecessor, unlike `evaluateCircuit`). -/
def detectInDeg (nodes : List CircuitNode) (connections : List Connection)
    (x : String) : Int :=
  ((connections.filter (fun c => presentBoth nodes c && c.toNodeId == x)).length : Int)

/-- `detectCycleConnections` (lines 218–255): an independent Kahn pass (whose
initial queue walks the object keys, i.e. the node ids in first-occurrence
order), then the connections with both endpoints among the unprocessed nodes. -/
def detectCycleConnections (nodes : List CircuitNode) (connections : List Connection) :
    List String :=
  let inDeg0 := detectInDeg nodes connections
  let queue0 := (jsDedup (nodes.map (fun n => n.id))).filter (fun id => inDeg0 id == 0)
  let processed := kahnLoop (outAdj nodes connections)
    (nodes.length + connections.length + 1) queue0 inDeg0 []
  let cycleNodes := (nodes.filter (fun n => !(processed.contains n.id))).map
    (fun n => n.id)
  (connections.filter
    (fun c => cycleNodes.contains c.fromNodeId && cycleNodes.contains c.toNodeId)).map
    (fun c => c.id)

/-- Adjacency of `wouldCreateCycle` (lines 263–267): per connection, no
presence check, no deduplication. -/
def wccAdj (connections : List Connection) (a : String) : List String :=
  (connections.filter (fun c => c.fromNodeId == a)).map (fun c => c.toNodeId)

/-- The BFS loop of `wouldCreateCycle` (lines 270–276).  `fuel` dominates the
iteration count (each pop consumes either a queue seed, a revisit, or an
unvisited vertex together with its out-edges); the `0` branch is never taken
for the fuel the caller supplies. -/
def wccLoop (adj : String → List String) (fromNodeId : String) :
    Nat → List String → List String → Bool
  | 0, _, _ => false
  | _ + 1, [], _ => false
  | fuel + 1, current :: rest, visited =>
      if current = fromNodeId then true
      else if current ∈ visited then wccLoop adj fromNodeId fuel rest visited
      else wccLoop adj fromNodeId fuel (rest ++ adj current) (visited ++ [current])

/-- The vertex universe of the BFS: the start vertex and every connection
target (every id that can ever enter the queue). -/
def wccUniverse (connections : List Connection) (toNodeId : String) : List String :=
  jsDedup (toNodeId :: connections.map (fun c => c.toNodeId))

/-- `wouldCreateCycle` (lines 257–278): true for a direct self-connection,
else a forward BFS from `toNodeId` over the existing connections looking for
`fromNodeId`. -/
def wouldCreateCycle (connections : List Connection) (fromNodeId toNodeId : String) :
    Bool :=
  if fromNodeId = toNodeId then true
  else
    wccLoop (wccAdj connections) fromNodeId
      (1 + ((wccUniverse connections toNodeId).map
        (fun v => 1 + (wccAdj connections v).length)).sum)
      [toNodeId] []

/-- One edge of the connection graph as followed by `wouldCreateCycle`. -/
def connStep (connections : List Connection) (a b : String) : Prop :=
  ∃ c ∈ connections, c.fromNodeId = a ∧ c.toNodeId = b

/-- One direct module reference: `M` contains a `MODULE` node that resolves
to `M'` in the library. -/
def directRef (modules : List ModuleDefinition) (M M' : ModuleDefinition) : Prop :=
  ∃ n ∈ M.nodes, n.type = GateType.MODULE ∧
    ∃ mid, n.moduleId = some mid ∧ modules.find? (fun m => m.id == mid) = some M'

/-- The input pins of a node (indices below its declared input count) that
have at least one connection targeting them. -/
def connectedPins (connections : List Connection) (nodeId : String)
    (inputCount : Nat) : List Nat :=
  (List.range inputCount).filter
    (fun i => (connections.find? (fun c => c.toNodeId == nodeId && c.toPinIndex == i)).isSome)

/-! ## Specification-side module semantics (for the refinement claim)

The following definitions follow the *specification's words* (§4.4 and the
module round-trip claim), to be compared with the source-derived
`moduleNodeOutput`: flattening consumes one slot per `INPUT` terminal and
`outputCount` slots per *input-mode* `PINBAR` terminal (nothing for any other
entry of `inputNodeIds`), and the external output vector is assembled from
`OUTPUT` terminals (their single internal result bit) and output-mode
`PINBAR` terminals (per input pin, the traced internal source value). -/

/-- Slot width of an `inputNodeIds` entry according to the spec: an `INPUT`
terminal consumes one slot, an input-mode `PINBAR` consumes its output-pin
count, anything else consumes none. -/
def specInputWidth (moduleDef : ModuleDefinition) (inId : String) : Nat :=
  match moduleDef.nodes.find? (fun n => n.id == inId) with
  | some n =>
      if n.type = GateType.INPUT then 1
      else if n.type = GateType.PINBAR ∧ n.pinBarMode.getD PinBarMode.input = PinBarMode.input then
        n.outputCount
      else 0
  | none => 0

/-- Offset of the `idx`-th input terminal in the flattened external input
vector, according to the spec. -/
def specInputOffset (moduleDef : ModuleDefinition) (idx : Nat) : Nat :=
  ((moduleDef.inputNodeIds.take idx).map (specInputWidth moduleDef)).sum

/-- The module's internal node list with input terminals overwritten by the
flattened external inputs, following the spec's words. -/
def specOverwriteNodes (moduleDef : ModuleDefinition) (externalInputs : List Bool) :
    List CircuitNode :=
  moduleDef.nodes.map (fun n =>
    match moduleDef.inputNodeIds.findIdx? (fun x => x == n.id) with
    | some idx =>
        if n.type = GateType.INPUT then
          { n with inputValue := some (externalInputs.getD (specInputOffset moduleDef idx) false) }
        else if n.type = GateType.PINBAR ∧ n.pinBarMode.getD PinBarMode.input = PinBarMode.input then
          { n with pinBarValues := some ((List.range n.outputCount).map
              (fun pi => externalInputs.getD (specInputOffset moduleDef idx + pi) false)) }
        else n
    | none => n)

/-- The module's external output vector read from the internal result map,
following the spec's words: an `OUTPUT` terminal contributes its single
internal result bit; an output-mode `PINBAR` contributes, per input pin, the
value of the internal source wired to that pin (or `false` when
unconnected); entries of any other kind contribute nothing. -/
def specReadStep (moduleDef : ModuleDefinition) (internalOutputs : Outputs)
    (acc : List Bool) (outId : String) : List Bool :=
  match moduleDef.nodes.find? (fun n => n.id == outId) with
  | some outNd =>
      if outNd.type = GateType.OUTPUT then
        acc ++ [((getOut internalOutputs outId).getD []).getD 0 false]
      else if outNd.type = GateType.PINBAR ∧ outNd.pinBarMode = some PinBarMode.output then
        acc ++ (List.range outNd.inputCount).map (fun pi =>
          match moduleDef.connections.find?
              (fun c => c.toNodeId == outId && c.toPinIndex == pi) with
          | some conn =>
              ((getOut internalOutputs conn.fromNodeId).getD []).getD conn.fromPinIndex false
          | none => false)
      else acc
  | none => acc

def specReadOutputs (moduleDef : ModuleDefinition) (internalOutputs : Outputs) :
    List Bool :=
  moduleDef.outputNodeIds.foldl (specReadStep moduleDef internalOutputs) []

/-- The spec-side module output: evaluate the module's internal circuit
standalone with the overwritten terminals, then read the external outputs. -/
def moduleNodeOutputSpec
    (recEval : List CircuitNode → List Connection → List ModuleDefinition →
      Option Outputs → Option Outputs)
    (modules : List ModuleDefinition) (moduleDef : ModuleDefinition)
    (externalInputs : List Bool) : Option (List Bool) :=
  (recEval (specOverwriteNodes moduleDef externalInputs) moduleDef.connections modules none).map
    (specReadOutputs moduleDef)

/-! ## Concrete circuits used by the claims -/

/-- The self-loop `NOT` node of the feedback-oscillation claim. -/
def notLoopNode : CircuitNode :=
  { id := "a", type := GateType.NOT, inputCount := 1, outputCount := 1 }

/-- Its self-loop wire: output pin 0 back to input pin 0. -/
def notLoopConn : Connection :=
  { id := "c", fromNodeId := "a", fromPinIndex := 0, toNodeId := "a", toPinIndex := 0 }

/-- Iterating `evaluate` on the `NOT` self-loop, feeding each call's result
map to the next call as `previousOutputs` (the first call gets none).  The
circuit has no modules, so module fuel 1 is exact. -/
def notLoopIter : Nat → Option Outputs
  | 0 => evaluateCircuitF 1 [notLoopNode] [notLoopConn] [] none
  | n + 1 => evaluateCircuitF 1 [notLoopNode] [notLoopConn] [] (notLoopIter n)

/-! ## Small helper lemmas -/

/-- A rank function increasing along every connection certifies that the
connection graph has no directed cycle. -/
theorem acyclic_of_rank (connections : List Connection) (rank : String → Nat)
    (h : ∀ c ∈ connections, rank c.fromNodeId < rank c.toNodeId) :
    ∀ x, ¬ Relation.TransGen (connStep connections) x x := by
  have mono : ∀ a b, Relation.TransGen (connStep connections) a b → rank a < rank b := by
    intro a b hab
    induction hab with
    | single hstep =>
        obtain ⟨c, hc, hfrom, hto⟩ := hstep
        subst hfrom; subst hto; exact h c hc
    | tail _ hstep ih =>
        obtain ⟨c, hc, hfrom, hto⟩ := hstep
        subst hfrom; subst hto
        exact lt_trans ih (h c hc)
  intro x hx
  exact lt_irrefl _ (mono x x hx)

/-- One pass of `evaluate` on the `NOT` self-loop flips the fed-back bit. -/
theorem notLoop_step (b : Bool) :
    evaluateCircuitF 1 [notLoopNode] [notLoopConn] [] (some [("a", [b])]) =
      some [("a", [!b])] := by
  cases b <;> rfl

/-- C1: the `NOT` self-loop lands in the cycle set, and iterated evaluation
with fed-back `previousOutputs` oscillates `[true]`, `[false]`, `[true]`, …
with every call returning a result (no fuel exhaustion: the circuit has no
modules). -/
theorem claim1_not_selfloop_oscillates :
    cycleNodeIds [notLoopNode] [notLoopConn] = ["a"] ∧
    ∀ n : Nat, notLoopIter n = some [("a", [decide (n % 2 = 0)])] := by
  refine ⟨by decide, ?_⟩
  intro n
  induction n with
  | zero => decide
  | succ n ih =>
      have h2 : notLoopIter (n + 1) =
          evaluateCircuitF 1 [notLoopNode] [notLoopConn] [] (notLoopIter n) := rfl
      rw [h2, ih, notLoop_step]
      rcases Nat.mod_two_eq_zero_or_one n with h | h
      · have h3 : (n + 1) % 2 = 1 := by omega
        simp [h, h3]
      · have h3 : (n + 1) % 2 = 0 := by omega
        simp [h, h3]

/-! ### Counterexample circuits -/

/-- A module definition whose `inputNodeIds` begins with an *output-mode*
`PINBAR`: the source lets it consume two flattened input slots, the spec's
flattening rule gives it none. -/
def pinbarModuleDef : ModuleDefinition :=
  { id := "M", name := "M",
    nodes := [{ id := "pb", type := GateType.PINBAR, inputCount := 0, outputCount := 2,
                pinBarMode := some PinBarMode.output },
              { id := "i1", type := GateType.INPUT, inputCount := 0, outputCount := 1,
                inputValue := some false },
              { id := "o1", type := GateType.OUTPUT, inputCount := 1, outputCount := 0 }],
    connections := [{ id := "mc", fromNodeId := "i1", fromPinIndex := 0,
                      toNodeId := "o1", toPinIndex := 0 }],
    inputNodeIds := ["pb", "i1"], outputNodeIds := ["o1"],
    inputCount := 3, outputCount := 1 }

/-- An enclosing circuit feeding the module instance `true, true, false` on
its three input pins. -/
def pinbarEnclosingNodes : List CircuitNode :=
  [{ id := "x1", type := GateType.INPUT, inputCount := 0, outputCount := 1,
     inputValue := some true },
   { id := "x2", type := GateType.INPUT, inputCount := 0, outputCount := 1,
     inputValue := some true },
   { id := "x3", type := GateType.INPUT, inputCount := 0, outputCount := 1,
     inputValue := some false },
   { id := "m", type := GateType.MODULE, inputCount := 3, outputCount := 1,
     moduleId := some "M" }]

/-- Wires of the enclosing circuit: the three inputs to the module's pins. -/
def pinbarEnclosingConns : List Connection :=
  [{ id := "w1", fromNodeId := "x1", fromPinIndex := 0, toNodeId := "m", toPinIndex := 0 },
   { id := "w2", fromNodeId := "x2", fromPinIndex := 0, toNodeId := "m", toPinIndex := 1 },
   { id := "w3", fromNodeId := "x3", fromPinIndex := 0, toNodeId := "m", toPinIndex := 2 }]

/-- C3 counterexample: on `pinbarModuleDef`, `evaluate` assigns the MODULE
node `[false]` while the spec-side flattening (input slots consumed only by
`INPUT` and input-mode `PINBAR` terminals) yields `[true]`: the source lets
the output-mode `PINBAR` in `inputNodeIds` shift the `INPUT` terminal's slot
from 0 to 2. -/
theorem claim3_module_flatten_cex :
    getOut ((evaluateCircuitF 2 pinbarEnclosingNodes pinbarEnclosingConns
        [pinbarModuleDef] none).getD []) "m" = some [false] ∧
    moduleNodeOutputSpec (evaluateCircuitF 1) [pinbarModuleDef] pinbarModuleDef
        [true, true, false] = some [true] ∧
    moduleNodeOutput (evaluateCircuitF 1) [pinbarModuleDef]
        { id := "m", type := GateType.MODULE, inputCount := 3, outputCount := 1,
          moduleId := some "M" } [true, true, false] ≠
      moduleNodeOutputSpec (evaluateCircuitF 1) [pinbarModuleDef] pinbarModuleDef
        [true, true, false] := by
  refine ⟨by decide, by decide, by decide⟩

/-- C4 counterexample circuit: an OR gate with only its first input pin
connected, fed `true`. -/
def orCexNodes : List CircuitNode :=
  [{ id := "i", type := GateType.INPUT, inputCount := 0, outputCount := 1,
     inputValue := some true },
   { id := "o", type := GateType.OR, inputCount := 2, outputCount := 1 }]

/-- The single wire of the OR counterexample. -/
def orCexConns : List Connection :=
  [{ id := "k", fromNodeId := "i", fromPinIndex := 0, toNodeId := "o", toPinIndex := 0 }]

/-- C4 counterexample: the OR gate has fewer than two connected input pins,
yet `evaluate` assigns it `[true]`, not `[false]` — the source's arity guard
tests the declared pin count, not the number of connections. -/
theorem claim4_or_single_input_cex :
    (connectedPins orCexConns "o" 2).length < 2 ∧
    getOut ((evaluateCircuitF 1 orCexNodes orCexConns [] none).getD []) "o" =
      some [true] ∧
    getOut ((evaluateCircuitF 1 orCexNodes orCexConns [] none).getD []) "o" ≠
      some [false] := by
  refine ⟨by decide, by decide, by decide⟩

/-- C5 counterexample circuit: a lone NOT gate with no connections at all. -/
def notCexNodes : List CircuitNode :=
  [{ id := "n", type := GateType.NOT, inputCount := 1, outputCount := 1 }]

/-- C5 counterexample: an unconnected NOT node is assigned `[true]` (the
negation of the defaulted `false` input), not `[false]`. -/
theorem claim5_not_unconnected_cex :
    getOut ((evaluateCircuitF 1 notCexNodes [] [] none).getD []) "n" = some [true] ∧
    getOut ((evaluateCircuitF 1 notCexNodes [] [] none).getD []) "n" ≠ some [false] := by
  refine ⟨by decide, by decide⟩

/-- C8 failing circuit: `A → B` through two parallel wires (to different
input pins of the AND gate) and `B → C`; plainly acyclic. -/
def parNodes : List CircuitNode :=
  [{ id := "A", type := GateType.INPUT, inputCount := 0, outputCount := 1,
     inputValue := some true },
   { id := "B", type := GateType.AND, inputCount := 2, outputCount := 1 },
   { id := "C", type := GateType.OUTPUT, inputCount := 1, outputCount := 0 }]

/-- The three wires of the C8 failing circuit. -/
def parConns : List Connection :=
  [{ id := "e1", fromNodeId := "A", fromPinIndex := 0, toNodeId := "B", toPinIndex := 0 },
   { id := "e2", fromNodeId := "A", fromPinIndex := 0, toNodeId := "B", toPinIndex := 1 },
   { id := "e3", fromNodeId := "B", fromPinIndex := 0, toNodeId := "C", toPinIndex := 0 }]

/-- C8: the circuit has no directed cycle (certified by a rank function),
`evaluateCircuit`'s own Kahn pass finds an empty cycle set, yet
`detectCycleConnections` reports `["e3"]`: it counts in-degree once per
connection but decrements once per deduplicated edge, so the two parallel
wires leave `B` (and hence `C`) permanently unreduced. -/
theorem claim8_detect_cycle_parallel_edge_bug :
    (∀ x, ¬ Relation.TransGen (connStep parConns) x x) ∧
    cycleNodeIds parNodes parConns = [] ∧
    detectCycleConnections parNodes parConns = ["e3"] := by
  refine ⟨acyclic_of_rank parConns
    (fun s => if s = "B" then 1 else if s = "C" then 2 else 0) (by decide),
    by decide, by decide⟩

/-- With no earlier connection targeting the pin, the evaluator's
per-pin `find?` selects exactly the earliest targeting connection. -/
theorem find?_pin_eq (l1 l2 : List Connection) (c : Connection) (nodeId : String)
    (i : Nat) (hc : c.toNodeId = nodeId ∧ c.toPinIndex = i)
    (hl1 : ∀ cc ∈ l1, ¬(cc.toNodeId = nodeId ∧ cc.toPinIndex = i)) :
    (l1 ++ c :: l2).find? (fun cc => cc.toNodeId == nodeId && cc.toPinIndex == i) =
      some c := by
  rw [List.find?_append]
  have h1 : l1.find? (fun cc => cc.toNodeId == nodeId && cc.toPinIndex == i) = none := by
    rw [List.find?_eq_none]
    intro cc hcc
    simp only [Bool.and_eq_true, beq_iff_eq]
    intro h
    exact hl1 cc hcc h
  have h2 : (c :: l2).find? (fun cc => cc.toNodeId == nodeId && cc.toPinIndex == i) =
      some c := by
    apply List.find?_cons_of_pos
    simp only [Bool.and_eq_true, beq_iff_eq]
    exact hc
  rw [h1, h2]
  rfl

/-- C10: when several connections target the same destination pin, the value
read for that pin is the one delivered by the earliest of them in the
connections list, and the later ones are ignored entirely. -/
theorem claim10_first_connection_wins
    (l1 l2 : List Connection) (c : Connection) (cycleSet : List String)
    (source frozen : Outputs) (nodeId : String) (i : Nat)
    (hc : c.toNodeId = nodeId ∧ c.toPinIndex = i)
    (hl1 : ∀ cc ∈ l1, ¬(cc.toNodeId = nodeId ∧ cc.toPinIndex = i)) :
    readPinValue (l1 ++ c :: l2) cycleSet source frozen nodeId i =
      ((getOut (if c.fromNodeId ∈ cycleSet then frozen else source) c.fromNodeId).getD
        []).getD c.fromPinIndex false ∧
    readPinValue (l1 ++ c :: l2) cycleSet source frozen nodeId i =
      readPinValue (l1 ++ [c]) cycleSet source frozen nodeId i := by
  have h1 := find?_pin_eq l1 l2 c nodeId i hc hl1
  have h2 := find?_pin_eq l1 [] c nodeId i hc hl1
  constructor
  · simp only [readPinValue, h1]
  · simp only [readPinValue, h1, h2]

/-- Conflicting wires for the C10 witness: two connections into pin 0 of
node `B`, from `A` (which carries `true`) and from `C` (which carries
`false`). -/
def dupPinConnA : Connection :=
  { id := "cA", fromNodeId := "A", fromPinIndex := 0, toNodeId := "B", toPinIndex := 0 }

/-- The second (losing) wire of the C10 witness. -/
def dupPinConnC : Connection :=
  { id := "cC", fromNodeId := "C", fromPinIndex := 0, toNodeId := "B", toPinIndex := 0 }

/-- The source map of the C10 witness. -/
def dupPinSource : Outputs := [("A", [true]), ("C", [false])]

/-- Witness for C10: with both wires present, the pin reads `A`'s value
`true` — the value the earliest connection delivers. -/
theorem claim10_first_connection_wins_witness :
    readPinValue [dupPinConnA, dupPinConnC] [] dupPinSource [] "B" 0 = true := by
  have h := claim10_first_connection_wins [] [dupPinConnC] dupPinConnA []
    dupPinSource [] "B" 0 (by constructor <;> rfl) (by intro cc hcc; simp at hcc)
  exact h.1.trans (by decide)

/-! ## Result-map lemmas -/

/-- Writing key `k` makes `k` read back the written value. -/
theorem getOut_setOut_self (m : Outputs) (k : String) (v : List Bool) :
    getOut (setOut m k v) k = some v := by
  induction m with
  | nil => simp [setOut, getOut, List.lookup]
  | cons p rest ih =>
      by_cases hp : p.1 = k
      · simp [setOut, hp, getOut, List.lookup]
      · have hk : (k == p.1) = false := by
          simp only [beq_eq_false_iff_ne, ne_eq]
          exact fun h => hp h.symm
        simpa [setOut, hp, getOut, List.lookup, hk] using ih

/-- Writing key `k` does not change the reading of any other key. -/
theorem getOut_setOut_ne (m : Outputs) (k k2 : String) (v : List Bool)
    (h : k2 ≠ k) : getOut (setOut m k v) k2 = getOut m k2 := by
  induction m with
  | nil =>
      have hk : (k2 == k) = false := by simpa using h
      simp [setOut, getOut, List.lookup, hk]
  | cons p rest ih =>
      by_cases hp : p.1 = k
      · have hk : (k2 == k) = false := by simpa using h
        have hk2 : (k2 == p.1) = false := by
          simp only [beq_eq_false_iff_ne, ne_eq]
          intro he
          exact h (he.trans hp)
        simp [setOut, hp, getOut, List.lookup, hk, hk2]
      · by_cases hq : k2 = p.1
        · simp [setOut, hp, getOut, List.lookup, hq]
        · have hq2 : (k2 == p.1) = false := by simpa using hq
          simpa [setOut, hp, getOut, List.lookup, hq2] using ih

/-! ## Pass lemmas -/

/-- A successful pass over `ids` ends with value `v` under `target` whenever
the step writes `v` (and only `v`) at `target`, leaves other keys' reads
unchanged, and `target` is either processed or already holds `v`. -/
theorem runIds_tracks (step : Outputs → String → Option Outputs) (target : String)
    (v : List Bool)
    (hpres : ∀ o r i, step o i = some r → i ≠ target → getOut r target = getOut o target)
    (hset : ∀ o r, step o target = some r → getOut r target = some v) :
    ∀ (ids : List String) (outs out : Outputs),
      runIds step ids outs = some out →
      (target ∈ ids ∨ getOut outs target = some v) → getOut out target = some v := by
  intro ids
  induction ids with
  | nil =>
      intro outs out hrun hmem
      rcases hmem with hmem | hmem
      · exact absurd hmem (List.not_mem_nil target)
      · simp only [runIds] at hrun
        cases hrun
        exact hmem
  | cons i rest ih =>
      intro outs out hrun hmem
      simp only [runIds] at hrun
      rcases Option.bind_eq_some.mp hrun with ⟨o1, hstep, hrest⟩
      by_cases hi : i = target
      · subst hi
        exact ih o1 out hrest (Or.inr (hset outs o1 hstep))
      · rcases hmem with hmem | hmem
        · rcases List.mem_cons.mp hmem with hmem | hmem
          · exact absurd hmem.symm hi
          · exact ih o1 out hrest (Or.inl hmem)
        · exact ih o1 out hrest (Or.inr ((hpres outs o1 i hstep hi).trans hmem))

/-- A node-evaluation step never changes the reading of a key other than the
id it was asked to evaluate. -/
theorem evalNodeF_preserves
    (recEval : List CircuitNode → List Connection → List ModuleDefinition →
      Option Outputs → Option Outputs)
    (nodes : List CircuitNode) (connections : List Connection)
    (modules : List ModuleDefinition) (cycleSet : List String)
    (frozen : Outputs) (isCyclePass : Bool) (o r : Outputs) (i target : String)
    (h : evalNodeF recEval nodes connections modules cycleSet frozen isCyclePass o i =
      some r) (hne : i ≠ target) : getOut r target = getOut o target := by
  unfold evalNodeF at h
  cases hfind : nodes.find? (fun n => n.id == i) with
  | none =>
      rw [hfind] at h
      cases h
      rfl
  | some node =>
      rw [hfind] at h
      rcases Option.map_eq_some'.mp h with ⟨v, _, hr⟩
      rw [← hr]
      exact getOut_setOut_ne o i target v (fun he => hne he.symm)

/-- If the node the step resolves has a state-independent value, the step
writes that value under the node's id. -/
theorem evalNodeF_writes
    (recEval : List CircuitNode → List Connection → List ModuleDefinition →
      Option Outputs → Option Outputs)
    (nodes : List CircuitNode) (connections : List Connection)
    (modules : List ModuleDefinition) (cycleSet : List String)
    (frozen : Outputs) (isCyclePass : Bool) (o r : Outputs)
    (node : CircuitNode) (v : List Bool)
    (hfind : nodes.find? (fun n => n.id == node.id) = some node)
    (hval : ∀ source, nodeValueF recEval connections modules cycleSet source frozen
      node.id node = some v)
    (h : evalNodeF recEval nodes connections modules cycleSet frozen isCyclePass o
      node.id = some r) : getOut r node.id = some v := by
  unfold evalNodeF at h
  rw [hfind] at h
  have h2 : Option.map (fun v => setOut o node.id v)
      (nodeValueF recEval connections modules cycleSet
        (if isCyclePass = true then frozen else o) frozen node.id node) = some r := h
  rw [hval (if isCyclePass = true then frozen else o)] at h2
  simp only [Option.map_some'] at h2
  cases h2
  exact getOut_setOut_self o node.id v

/-- Under distinct node ids, `find?` by a member's id returns that member. -/
theorem find?_id_of_nodup (nodes : List CircuitNode) (node : CircuitNode)
    (hnd : (nodes.map (fun n => n.id)).Nodup) (hmem : node ∈ nodes) :
    nodes.find? (fun n => n.id == node.id) = some node := by
  induction nodes with
  | nil => exact absurd hmem (List.not_mem_nil node)
  | cons n0 rest ih =>
      rcases List.mem_cons.mp hmem with heq | hmem2
      · subst heq
        exact List.find?_cons_of_pos rest (by simp)
      · simp only [List.map_cons, List.nodup_cons] at hnd
        have hne : (n0.id == node.id) = false := by
          simp only [beq_eq_false_iff_ne, ne_eq]
          intro he
          exact hnd.1 (he ▸ List.mem_map_of_mem (fun n => n.id) hmem2)
        rw [List.find?_cons_of_neg rest (by simp [hne])]
        exact ih hnd.2 hmem2

/-- The accumulator sequence of the cycle-collection fold only grows. -/
theorem collectCycle_mono (nodes : List CircuitNode) (p : List String × List String)
    (x : String) (hx : x ∈ p.1) :
    x ∈ (nodes.foldl
      (fun (q : List String × List String) n =>
        if n.id ∈ q.1 then q else (q.1 ++ [n.id], q.2 ++ [n.id])) p).1 := by
  induction nodes generalizing p with
  | nil => exact hx
  | cons n0 rest ih =>
      simp only [List.foldl_cons]
      by_cases h0 : n0.id ∈ p.1
      · simp only [h0, if_true]
        exact ih p hx
      · simp only [h0, if_false]
        exact ih _ (List.mem_append_left _ hx)

/-- Every node's id ends up in the collected evaluation sequence. -/
theorem collectCycle_covers (nodes : List CircuitNode) (p : List String × List String)
    (node : CircuitNode) (hmem : node ∈ nodes) :
    node.id ∈ (nodes.foldl
      (fun (q : List String × List String) n =>
        if n.id ∈ q.1 then q else (q.1 ++ [n.id], q.2 ++ [n.id])) p).1 := by
  induction nodes generalizing p with
  | nil => exact absurd hmem (List.not_mem_nil node)
  | cons n0 rest ih =>
      simp only [List.foldl_cons]
      rcases List.mem_cons.mp hmem with heq | hmem2
      · subst heq
        by_cases h0 : node.id ∈ p.1
        · simp only [h0, if_true]
          exact collectCycle_mono rest p node.id h0
        · simp only [h0, if_false]
          exact collectCycle_mono rest _ node.id (by simp)
      · by_cases h0 : n0.id ∈ p.1
        · simp only [h0, if_true]
          exact ih p hmem2
        · simp only [h0, if_false]
          exact ih _ hmem2

/-- Every node's id appears in the evaluation sequence. -/
theorem mem_evalSequence (nodes : List CircuitNode) (connections : List Connection)
    (node : CircuitNode) (hmem : node ∈ nodes) :
    node.id ∈ evalSequence nodes connections :=
  collectCycle_covers nodes (kahnSorted nodes connections, []) node hmem

/-- Pipeline lemma: under distinct node ids, if a node's value is independent
of the read state (same result for every snapshot and pass), a successful
evaluation ends with that value recorded under the node's id. -/
theorem evaluate_entry_of_const (fuel : Nat) (nodes : List CircuitNode)
    (connections : List Connection) (modules : List ModuleDefinition)
    (prev : Option Outputs) (out : Outputs) (node : CircuitNode) (v : List Bool)
    (hnd : (nodes.map (fun n => n.id)).Nodup) (hmem : node ∈ nodes)
    (hval : ∀ recEval cycleSet source frozen,
      nodeValueF recEval connections modules cycleSet source frozen node.id node = some v)
    (heval : evaluateCircuitF fuel nodes connections modules prev = some out) :
    getOut out node.id = some v := by
  cases fuel with
  | zero => simp [evaluateCircuitF] at heval
  | succ f =>
      simp only [evaluateCircuitF] at heval
      rcases Option.bind_eq_some.mp heval with ⟨outs1, hpass1, hpass2⟩
      have hfind : nodes.find? (fun n => n.id == node.id) = some node :=
        find?_id_of_nodup nodes node hnd hmem
      have hcover : node.id ∈ evalSequence nodes connections :=
        mem_evalSequence nodes connections node hmem
      by_cases hcyc : node.id ∈ cycleNodeIds nodes connections
      · -- the node is evaluated in the cycle pass
        exact runIds_tracks _ node.id v
          (fun o r i hs hi => evalNodeF_preserves _ _ _ _ _ _ _ o r i node.id hs hi)
          (fun o r hs => evalNodeF_writes _ _ _ _ _ _ _ o r node v hfind
            (fun source => hval _ _ source _) hs)
          _ outs1 out hpass2 (Or.inl hcyc)
      · -- the node is evaluated in the acyclic pass, and its entry survives
        have hac : node.id ∈ (evalSequence nodes connections).filter
            (fun id => !((cycleNodeIds nodes connections).contains id)) := by
          rw [List.mem_filter]
          refine ⟨hcover, ?_⟩
          simp only [Bool.not_eq_true', ← Bool.not_eq_true]
          intro hcon
          exact hcyc (List.elem_iff.mp hcon)
        have h1 : getOut outs1 node.id = some v :=
          runIds_tracks _ node.id v
            (fun o r i hs hi => evalNodeF_preserves _ _ _ _ _ _ _ o r i node.id hs hi)
            (fun o r hs => evalNodeF_writes _ _ _ _ _ _ _ o r node v hfind
              (fun source => hval _ _ source _) hs)
            _ _ outs1 hpass1 (Or.inl hac)
        exact runIds_tracks _ node.id v
          (fun o r i hs hi => evalNodeF_preserves _ _ _ _ _ _ _ o r i node.id hs hi)
          (fun o r hs => evalNodeF_writes _ _ _ _ _ _ _ o r node v hfind
            (fun source => hval _ _ source _) hs)
          _ outs1 out hpass2 (Or.inr h1)

/-! ## Gate-value lemmas for default/arity behavior -/

/-- `getD` through a `map` over `range`. -/
theorem mapRange_getD (f : Nat → Bool) (n j : Nat) (hj : j < n) :
    ((List.range n).map f).getD j false = f j := by
  rw [List.getD_eq_getElem?_getD, List.getElem?_map, List.getElem?_range hj]
  rfl

/-- An input pin with no connection targeting it reads `false`. -/
theorem readPin_unconnected (connections : List Connection) (cycleSet : List String)
    (source frozen : Outputs) (nodeId : String) (i : Nat)
    (h : connections.find? (fun c => c.toNodeId == nodeId && c.toPinIndex == i) = none) :
    readPinValue connections cycleSet source frozen nodeId i = false := by
  simp [readPinValue, h]

/-- The input-value vector reads `false` at an unconnected index (in range or
not). -/
theorem iv_getD_false (connections : List Connection) (cycleSet : List String)
    (source frozen : Outputs) (nodeId : String) (n j : Nat)
    (h : connections.find? (fun c => c.toNodeId == nodeId && c.toPinIndex == j) = none) :
    ((List.range n).map (readPinValue connections cycleSet source frozen nodeId)).getD
      j false = false := by
  by_cases hj : j < n
  · rw [mapRange_getD _ n j hj]
    exact readPin_unconnected connections cycleSet source frozen nodeId j h
  · rw [List.getD_eq_getElem?_getD, List.getElem?_eq_none (by simpa using Nat.le_of_not_lt hj)]
    rfl

/-- Two distinct members of a `Nodup` list force length at least two. -/
theorem two_le_length_of_mem_nodup {l : List Nat} {a b : Nat} (hnd : l.Nodup)
    (ha : a ∈ l) (hb : b ∈ l) (hab : a ≠ b) : 2 ≤ l.length := by
  have h1 : ({a, b} : Finset Nat) ⊆ l.toFinset := by
    intro x hx
    rcases Finset.mem_insert.mp hx with h | h
    · subst h; exact List.mem_toFinset.mpr ha
    · rw [Finset.mem_singleton] at h; subst h; exact List.mem_toFinset.mpr hb
  calc 2 = ({a, b} : Finset Nat).card := (Finset.card_pair hab).symm
    _ ≤ l.toFinset.card := Finset.card_le_card h1
    _ ≤ l.length := List.toFinset_card_le l

/-- Membership in `connectedPins`. -/
theorem mem_connectedPins (connections : List Connection) (nodeId : String)
    (n i : Nat) :
    i ∈ connectedPins connections nodeId n ↔ i < n ∧
      (connections.find? (fun c => c.toNodeId == nodeId && c.toPinIndex == i)).isSome := by
  unfold connectedPins
  rw [List.mem_filter, List.mem_range]

/-- An AND node with fewer than two connected input pins evaluates to
`[false]` in every read state. -/
theorem nodeValueF_and_disconnected
    (recEval : List CircuitNode → List Connection → List ModuleDefinition →
      Option Outputs → Option Outputs)
    (connections : List Connection) (modules : List ModuleDefinition)
    (cycleSet : List String) (source frozen : Outputs) (node : CircuitNode)
    (htype : node.type = GateType.AND)
    (hconn : (connectedPins connections node.id node.inputCount).length < 2) :
    nodeValueF recEval connections modules cycleSet source frozen node.id node =
      some [false] := by
  simp only [nodeValueF, htype]
  by_cases hn : node.inputCount < 2
  · simp only [List.length_map, List.length_range]
    have hle : ¬(node.inputCount ≥ 2) := Nat.not_le.mpr hn
    simp [decide_eq_false hle]
  · push_neg at hn
    have hnd : (connectedPins connections node.id node.inputCount).Nodup :=
      List.Nodup.filter _ (List.nodup_range _)
    have hnot : ¬((connections.find?
          (fun c => c.toNodeId == node.id && c.toPinIndex == 0)).isSome ∧
        (connections.find?
          (fun c => c.toNodeId == node.id && c.toPinIndex == 1)).isSome) := by
      rintro ⟨h0, h1⟩
      have m0 : (0 : Nat) ∈ connectedPins connections node.id node.inputCount :=
        (mem_connectedPins _ _ _ _).mpr ⟨by omega, h0⟩
      have m1 : (1 : Nat) ∈ connectedPins connections node.id node.inputCount :=
        (mem_connectedPins _ _ _ _).mpr ⟨by omega, h1⟩
      exact absurd hconn (not_lt.mpr (two_le_length_of_mem_nodup hnd m0 m1 (by omega)))
    rcases not_and_or.mp hnot with h0 | h1
    · rw [iv_getD_false connections cycleSet source frozen node.id node.inputCount 0
        (Option.not_isSome_iff_eq_none.mp h0)]
      simp
    · rw [iv_getD_false connections cycleSet source frozen node.id node.inputCount 1
        (Option.not_isSome_iff_eq_none.mp h1)]
      simp

/-- An OR node with no connected input pins evaluates to `[false]` in every
read state. -/
theorem nodeValueF_or_unconnected
    (recEval : List CircuitNode → List Connection → List ModuleDefinition →
      Option Outputs → Option Outputs)
    (connections : List Connection) (modules : List ModuleDefinition)
    (cycleSet : List String) (source frozen : Outputs) (node : CircuitNode)
    (htype : node.type = GateType.OR)
    (hconn : (connectedPins connections node.id node.inputCount).length = 0) :
    nodeValueF recEval connections modules cycleSet source frozen node.id node =
      some [false] := by
  simp only [nodeValueF, htype]
  have hemp : connectedPins connections node.id node.inputCount = [] :=
    List.length_eq_zero.mp hconn
  have hpin : ∀ j, j < node.inputCount →
      connections.find? (fun c => c.toNodeId == node.id && c.toPinIndex == j) = none := by
    intro j hj
    by_contra hne
    have : j ∈ connectedPins connections node.id node.inputCount :=
      (mem_connectedPins _ _ _ _).mpr
        ⟨hj, Option.ne_none_iff_isSome.mp hne⟩
    rw [hemp] at this
    exact absurd this (List.not_mem_nil j)
  by_cases hn : node.inputCount < 2
  · simp only [List.length_map, List.length_range]
    have hle : ¬(node.inputCount ≥ 2) := Nat.not_le.mpr hn
    simp [decide_eq_false hle]
  · push_neg at hn
    rw [iv_getD_false connections cycleSet source frozen node.id node.inputCount 0
        (hpin 0 (by omega)),
      iv_getD_false connections cycleSet source frozen node.id node.inputCount 1
        (hpin 1 (by omega))]
    simp

/-- With no incoming connection at all, no per-pin lookup succeeds. -/
theorem find?_none_of_no_incoming (connections : List Connection) (nodeId : String)
    (hno : ∀ c ∈ connections, c.toNodeId ≠ nodeId) (i : Nat) :
    connections.find? (fun c => c.toNodeId == nodeId && c.toPinIndex == i) = none := by
  rw [List.find?_eq_none]
  intro c hc
  simp only [Bool.and_eq_true, beq_iff_eq]
  rintro ⟨h1, _⟩
  exact hno c hc h1

/-- The value a node with no incoming connections takes, by kind: `[false]`
for AND, OR, OUTPUT and LED; `[true]` for NOT (negation of the defaulted
input). -/
theorem nodeValueF_no_incoming
    (recEval : List CircuitNode → List Connection → List ModuleDefinition →
      Option Outputs → Option Outputs)
    (connections : List Connection) (modules : List ModuleDefinition)
    (cycleSet : List String) (source frozen : Outputs) (node : CircuitNode)
    (hno : ∀ c ∈ connections, c.toNodeId ≠ node.id) :
    ((node.type = GateType.AND ∨ node.type = GateType.OR ∨
        node.type = GateType.OUTPUT ∨ node.type = GateType.LED) →
      nodeValueF recEval connections modules cycleSet source frozen node.id node =
        some [false]) ∧
    (node.type = GateType.NOT →
      nodeValueF recEval connections modules cycleSet source frozen node.id node =
        some [true]) := by
  have hfind := find?_none_of_no_incoming connections node.id hno
  have hgd : ∀ j, ((List.range node.inputCount).map
      (readPinValue connections cycleSet source frozen node.id)).getD j false = false :=
    fun j => iv_getD_false connections cycleSet source frozen node.id node.inputCount j
      (hfind j)
  constructor
  · rintro (htype | htype | htype | htype)
    · simp only [nodeValueF, htype, hgd 0, hgd 1]
      simp
    · simp only [nodeValueF, htype, hgd 0, hgd 1]
      simp
    · simp only [nodeValueF, htype, hgd 0]
    · simp only [nodeValueF, htype, hgd 0]
  · intro htype
    simp only [nodeValueF, htype, hgd 0]
    rfl

/-- C4 (amended): in any successful evaluation with distinct node ids, an AND
node with fewer than two connected input pins is assigned `[false]`
regardless of the values on its connected pins, and an OR node with no
connected input pins is assigned `[false]`.  (An OR node with exactly one
connected pin outputs that pin's value — see the counterexample.) -/
theorem claim4_gate_arity_default_amended (fuel : Nat) (nodes : List CircuitNode)
    (connections : List Connection) (modules : List ModuleDefinition)
    (prev : Option Outputs) (out : Outputs) (node : CircuitNode)
    (hnd : (nodes.map (fun n => n.id)).Nodup) (hmem : node ∈ nodes)
    (heval : evaluateCircuitF fuel nodes connections modules prev = some out) :
    (node.type = GateType.AND →
      (connectedPins connections node.id node.inputCount).length < 2 →
      getOut out node.id = some [false]) ∧
    (node.type = GateType.OR →
      (connectedPins connections node.id node.inputCount).length = 0 →
      getOut out node.id = some [false]) := by
  constructor
  · intro htype hconn
    exact evaluate_entry_of_const fuel nodes connections modules prev out node [false]
      hnd hmem
      (fun recEval cyc source frozen =>
        nodeValueF_and_disconnected recEval connections modules cyc source frozen
          node htype hconn)
      heval
  · intro htype hconn
    exact evaluate_entry_of_const fuel nodes connections modules prev out node [false]
      hnd hmem
      (fun recEval cyc source frozen =>
        nodeValueF_or_unconnected recEval connections modules cyc source frozen
          node htype hconn)
      heval

/-- The AND gate of the C4 witness circuit. -/
def andWitGate : CircuitNode :=
  { id := "g", type := GateType.AND, inputCount := 2, outputCount := 1 }

/-- C4 witness circuit: an AND gate with only pin 0 connected, fed `true`. -/
def andWitNodes : List CircuitNode :=
  [{ id := "i", type := GateType.INPUT, inputCount := 0, outputCount := 1,
     inputValue := some true }, andWitGate]

/-- The single wire of the C4 witness circuit. -/
def andWitConns : List Connection :=
  [{ id := "k", fromNodeId := "i", fromPinIndex := 0, toNodeId := "g", toPinIndex := 0 }]

/-- Witness for the amended C4: the one-pin-connected AND is assigned
`[false]` even though its connected pin carries `true`. -/
theorem claim4_gate_arity_default_amended_witness :
    andWitGate.type = GateType.AND ∧
    (connectedPins andWitConns "g" 2).length < 2 ∧
    getOut [("i", [true]), ("g", [false])] "g" = some [false] := by
  refine ⟨rfl, by decide, ?_⟩
  have heval : evaluateCircuitF 1 andWitNodes andWitConns [] none =
      some [("i", [true]), ("g", [false])] := by decide
  exact (claim4_gate_arity_default_amended 1 andWitNodes andWitConns [] none
    [("i", [true]), ("g", [false])] andWitGate (by decide) (by decide) heval).1
    rfl (by decide)

/-- C5 (amended): in any successful evaluation with distinct node ids, a node
with no incoming connections is assigned `[false]` when it is an AND, OR,
OUTPUT or LED node, and `[true]` when it is a NOT node (the negation of the
defaulted `false` input — the original claim's `[false]` for NOT is refuted
by the counterexample). -/
theorem claim5_unconnected_defaults_amended (fuel : Nat) (nodes : List CircuitNode)
    (connections : List Connection) (modules : List ModuleDefinition)
    (prev : Option Outputs) (out : Outputs) (node : CircuitNode)
    (hnd : (nodes.map (fun n => n.id)).Nodup) (hmem : node ∈ nodes)
    (heval : evaluateCircuitF fuel nodes connections modules prev = some out)
    (hno : ∀ c ∈ connections, c.toNodeId ≠ node.id) :
    ((node.type = GateType.AND ∨ node.type = GateType.OR ∨
        node.type = GateType.OUTPUT ∨ node.type = GateType.LED) →
      getOut out node.id = some [false]) ∧
    (node.type = GateType.NOT → getOut out node.id = some [true]) := by
  constructor
  · intro htype
    exact evaluate_entry_of_const fuel nodes connections modules prev out node [false]
      hnd hmem
      (fun recEval cyc source frozen =>
        (nodeValueF_no_incoming recEval connections modules cyc source frozen
          node hno).1 htype)
      heval
  · intro htype
    exact evaluate_entry_of_const fuel nodes connections modules prev out node [true]
      hnd hmem
      (fun recEval cyc source frozen =>
        (nodeValueF_no_incoming recEval connections modules cyc source frozen
          node hno).2 htype)
      heval

/-- The NOT gate of the C5 witness circuit. -/
def notWitGate : CircuitNode :=
  { id := "n", type := GateType.NOT, inputCount := 1, outputCount := 1 }

/-- C5 witness circuit: an unconnected AND and an unconnected NOT. -/
def notWitNodes : List CircuitNode :=
  [{ id := "a", type := GateType.AND, inputCount := 2, outputCount := 1 }, notWitGate]

/-- Witness for the amended C5: with no connections, the NOT node is
assigned `[true]`. -/
theorem claim5_unconnected_defaults_amended_witness :
    notWitGate.type = GateType.NOT ∧
    getOut [("a", [false]), ("n", [true])] "n" = some [true] := by
  refine ⟨rfl, ?_⟩
  have heval : evaluateCircuitF 1 notWitNodes [] [] none =
      some [("a", [false]), ("n", [true])] := by decide
  exact (claim5_unconnected_defaults_amended 1 notWitNodes [] [] none
    [("a", [false]), ("n", [true])] notWitGate (by decide) (by decide) heval
    (by intro c hc; simp at hc)).2 rfl

/-! ## Phase-2 order independence -/

/-- The outcome of a cycle-pass step for one node id, computed from the
frozen snapshot only (never from the live output map): `none` = fuel
exhaustion, `some none` = missing node (no write), `some (some v)` = write
`v`. -/
def phase2Val
    (recEval : List CircuitNode → List Connection → List ModuleDefinition →
      Option Outputs → Option Outputs)
    (nodes : List CircuitNode) (connections : List Connection)
    (modules : List ModuleDefinition) (cycleSet : List String)
    (frozen : Outputs) (id : String) : Option (Option (List Bool)) :=
  match nodes.find? (fun n => n.id == id) with
  | none => some none
  | some node =>
      (nodeValueF recEval connections modules cycleSet frozen frozen id node).map some

/-- A cycle-pass step is fully described by `phase2Val`: the value written
under `id` does not depend on the live output map. -/
theorem evalNodeF_cycle_eq
    (recEval : List CircuitNode → List Connection → List ModuleDefinition →
      Option Outputs → Option Outputs)
    (nodes : List CircuitNode) (connections : List Connection)
    (modules : List ModuleDefinition) (cycleSet : List String)
    (frozen : Outputs) (o : Outputs) (id : String) :
    evalNodeF recEval nodes connections modules cycleSet frozen true o id =
      (match phase2Val recEval nodes connections modules cycleSet frozen id with
        | none => none
        | some none => some o
        | some (some v) => some (setOut o id v)) := by
  unfold evalNodeF phase2Val
  cases hfind : nodes.find? (fun n => n.id == id) with
  | none => rfl
  | some node =>
      cases hval : nodeValueF recEval connections modules cycleSet frozen frozen id node with
      | none => simp [hval]
      | some v => simp [hval]

/-- A cycle pass succeeds exactly when every processed id's outcome is
defined, independently of the incoming output map. -/
theorem runIds_cycle_isSome
    (recEval : List CircuitNode → List Connection → List ModuleDefinition →
      Option Outputs → Option Outputs)
    (nodes : List CircuitNode) (connections : List Connection)
    (modules : List ModuleDefinition) (cycleSet : List String) (frozen : Outputs) :
    ∀ (ids : List String) (outs : Outputs),
      (runIds (evalNodeF recEval nodes connections modules cycleSet frozen true)
        ids outs).isSome ↔
      ∀ id ∈ ids, (phase2Val recEval nodes connections modules cycleSet frozen id).isSome := by
  intro ids
  induction ids with
  | nil => intro outs; simp [runIds]
  | cons i rest ih =>
      intro outs
      simp only [runIds, evalNodeF_cycle_eq recEval nodes connections modules cycleSet frozen]
      cases hv : phase2Val recEval nodes connections modules cycleSet frozen i with
      | none => simp [hv]
      | some w =>
          cases w with
          | none => simp [hv, ih outs]
          | some v => simp [hv, ih (setOut outs i v)]

/-- After a successful cycle pass, each key reads either the (state
independent) value written for it — when it was processed — or its prior
value. -/
theorem runIds_cycle_lookup
    (recEval : List CircuitNode → List Connection → List ModuleDefinition →
      Option Outputs → Option Outputs)
    (nodes : List CircuitNode) (connections : List Connection)
    (modules : List ModuleDefinition) (cycleSet : List String) (frozen : Outputs) :
    ∀ (ids : List String) (outs out : Outputs),
      runIds (evalNodeF recEval nodes connections modules cycleSet frozen true)
        ids outs = some out →
      ∀ k, getOut out k =
        (match phase2Val recEval nodes connections modules cycleSet frozen k with
          | some (some v) => if k ∈ ids then some v else getOut outs k
          | _ => getOut outs k) := by
  intro ids
  induction ids with
  | nil =>
      intro outs out hrun k
      simp only [runIds] at hrun
      cases hrun
      cases hv : phase2Val recEval nodes connections modules cycleSet frozen k with
      | none => rfl
      | some w => cases w <;> simp
  | cons i rest ih =>
      intro outs out hrun k
      simp only [runIds,
        evalNodeF_cycle_eq recEval nodes connections modules cycleSet frozen] at hrun
      cases hvi : phase2Val recEval nodes connections modules cycleSet frozen i with
      | none => rw [hvi] at hrun; simp at hrun
      | some wi =>
          cases wi with
          | none =>
              rw [hvi] at hrun
              simp only [Option.some_bind] at hrun
              have hres := ih outs out hrun k
              by_cases hk : k = i
              · subst hk
                rw [hvi] at hres ⊢
                simpa using hres
              · cases hv : phase2Val recEval nodes connections modules cycleSet frozen k with
                | none => rw [hv] at hres; exact hres
                | some w =>
                    cases w with
                    | none => rw [hv] at hres; simpa using hres
                    | some v =>
                        rw [hv] at hres
                        rw [hres]
                        simp [List.mem_cons, hk]
          | some vi =>
              rw [hvi] at hrun
              simp only [Option.some_bind] at hrun
              have hres := ih (setOut outs i vi) out hrun k
              by_cases hk : k = i
              · subst hk
                rw [hvi] at hres ⊢
                by_cases hkr : k ∈ rest
                · simpa [hkr] using hres
                · simp only [hkr, if_false] at hres
                  rw [hres, getOut_setOut_self]
                  simp
              · have hne : getOut (setOut outs i vi) k = getOut outs k :=
                  getOut_setOut_ne outs i k vi hk
                cases hv : phase2Val recEval nodes connections modules cycleSet frozen k with
                | none => rw [hv] at hres; rw [hres, hne]
                | some w =>
                    cases w with
                    | none => rw [hv] at hres; simp only at hres; rw [hres, hne]
                    | some v =>
                        rw [hv] at hres
                        rw [hres]
                        by_cases hkr : k ∈ rest
                        · simp [hkr, List.mem_cons]
                        · simp [hkr, List.mem_cons, hk, hne]

/-- C2: the phase-2 (cycle) pass of `evaluateCircuit` reads only the frozen
snapshot — its per-node outcome `phase2Val` does not mention the live output
map — and consequently running the cycle-set nodes in any order produces the
same result map (same success/failure, and pointwise equal readings). -/
theorem claim2_phase2_order_independent
    (recEval : List CircuitNode → List Connection → List ModuleDefinition →
      Option Outputs → Option Outputs)
    (nodes : List CircuitNode) (connections : List Connection)
    (modules : List ModuleDefinition) (frozen outs : Outputs) (ids2 : List String)
    (hperm : (cycleNodeIds nodes connections).Perm ids2) :
    ∀ k, (runIds (evalNodeF recEval nodes connections modules
          (cycleNodeIds nodes connections) frozen true)
        (cycleNodeIds nodes connections) outs).map (fun o => getOut o k) =
      (runIds (evalNodeF recEval nodes connections modules
          (cycleNodeIds nodes connections) frozen true) ids2 outs).map
        (fun o => getOut o k) := by
  intro k
  cases h1 : runIds (evalNodeF recEval nodes connections modules
      (cycleNodeIds nodes connections) frozen true) (cycleNodeIds nodes connections)
      outs with
  | none =>
      have h2 : runIds (evalNodeF recEval nodes connections modules
          (cycleNodeIds nodes connections) frozen true) ids2 outs = none := by
        rw [← Option.not_isSome_iff_eq_none] at h1 ⊢
        intro hs
        apply h1
        rw [runIds_cycle_isSome] at hs ⊢
        intro id hid
        exact hs id (hperm.mem_iff.mp hid)
      rw [h2]
  | some o1 =>
      have hs1 : ∀ id ∈ cycleNodeIds nodes connections,
          (phase2Val recEval nodes connections modules
            (cycleNodeIds nodes connections) frozen id).isSome := by
        rw [← runIds_cycle_isSome recEval nodes connections modules
          (cycleNodeIds nodes connections) frozen (cycleNodeIds nodes connections) outs]
        rw [h1]
        rfl
      have hs2 : (runIds (evalNodeF recEval nodes connections modules
          (cycleNodeIds nodes connections) frozen true) ids2 outs).isSome := by
        rw [runIds_cycle_isSome]
        intro id hid
        exact hs1 id (hperm.mem_iff.mpr hid)
      obtain ⟨o2, h2⟩ := Option.isSome_iff_exists.mp hs2
      rw [h2]
      simp only [Option.map_some']
      congr 1
      have l1 := runIds_cycle_lookup recEval nodes connections modules
        (cycleNodeIds nodes connections) frozen (cycleNodeIds nodes connections)
        outs o1 h1 k
      have l2 := runIds_cycle_lookup recEval nodes connections modules
        (cycleNodeIds nodes connections) frozen ids2 outs o2 h2 k
      rw [l1, l2]
      cases phase2Val recEval nodes connections modules
          (cycleNodeIds nodes connections) frozen k with
      | none => rfl
      | some w =>
          cases w with
          | none => rfl
          | some v =>
              simp only
              exact if_congr hperm.mem_iff rfl rfl

/-- The two-NOT feedback ring used by the C2 witness. -/
def ringNodes : List CircuitNode :=
  [{ id := "n1", type := GateType.NOT, inputCount := 1, outputCount := 1 },
   { id := "n2", type := GateType.NOT, inputCount := 1, outputCount := 1 }]

/-- The two wires of the feedback ring. -/
def ringConns : List Connection :=
  [{ id := "r1", fromNodeId := "n1", fromPinIndex := 0, toNodeId := "n2", toPinIndex := 0 },
   { id := "r2", fromNodeId := "n2", fromPinIndex := 0, toNodeId := "n1", toPinIndex := 0 }]

/-- Witness for C2: on the two-NOT ring, running the cycle pass in reversed
order gives the same reading for `n2`. -/
theorem claim2_phase2_order_independent_witness :
    (cycleNodeIds ringNodes ringConns).Perm ["n2", "n1"] ∧
    (runIds (evalNodeF (evaluateCircuitF 0) ringNodes ringConns []
        (cycleNodeIds ringNodes ringConns) [("n1", [true])] true)
      (cycleNodeIds ringNodes ringConns) []).map (fun o => getOut o "n2") =
    (runIds (evalNodeF (evaluateCircuitF 0) ringNodes ringConns []
        (cycleNodeIds ringNodes ringConns) [("n1", [true])] true)
      ["n2", "n1"] []).map (fun o => getOut o "n2") :=
  ⟨by decide,
   claim2_phase2_order_independent (evaluateCircuitF 0) ringNodes ringConns []
     [("n1", [true])] [] ["n2", "n1"] (by decide) "n2"⟩

/-! ## Correctness of the `wouldCreateCycle` BFS -/

/-- Membership through the first-occurrence deduplication fold. -/
theorem jsDedup_fold_mem : ∀ (l acc : List String) (x : String),
    (x ∈ l.foldl (fun acc x => if x ∈ acc then acc else acc ++ [x]) acc) ↔
      x ∈ acc ∨ x ∈ l := by
  intro l
  induction l with
  | nil => intro acc x; simp
  | cons y rest ih =>
      intro acc x
      simp only [List.foldl_cons]
      by_cases hy : y ∈ acc
      · simp only [hy, if_true]
        rw [ih acc x]
        constructor
        · rintro (h | h)
          · exact Or.inl h
          · exact Or.inr (List.mem_cons_of_mem y h)
        · rintro (h | h)
          · exact Or.inl h
          · rcases List.mem_cons.mp h with rfl | h
            · exact Or.inl hy
            · exact Or.inr h
      · simp only [hy, if_false]
        rw [ih (acc ++ [y]) x]
        simp only [List.mem_append, List.mem_singleton, List.mem_cons]
        tauto

/-- `jsDedup` preserves membership. -/
theorem mem_jsDedup (l : List String) (x : String) : x ∈ jsDedup l ↔ x ∈ l := by
  unfold jsDedup
  rw [jsDedup_fold_mem]
  simp

/-- The deduplication fold keeps the accumulator duplicate-free. -/
theorem jsDedup_fold_nodup : ∀ (l acc : List String), acc.Nodup →
    (l.foldl (fun acc x => if x ∈ acc then acc else acc ++ [x]) acc).Nodup := by
  intro l
  induction l with
  | nil => intro acc h; exact h
  | cons y rest ih =>
      intro acc h
      simp only [List.foldl_cons]
      by_cases hy : y ∈ acc
      · simp only [hy, if_true]
        exact ih acc h
      · simp only [hy, if_false]
        exact ih (acc ++ [y]) (by simp [List.nodup_append, h, hy])

/-- `jsDedup` output is duplicate-free. -/
theorem jsDedup_nodup (l : List String) : (jsDedup l).Nodup :=
  jsDedup_fold_nodup l [] List.nodup_nil


/-- Membership in the BFS adjacency is exactly one forward connection step. -/
theorem wccAdj_mem (connections : List Connection) (a q : String) :
    q ∈ wccAdj connections a ↔ connStep connections a q := by
  unfold wccAdj connStep
  simp only [List.mem_map, List.mem_filter, beq_iff_eq]
  constructor
  · rintro ⟨c, ⟨hc, hfrom⟩, hto⟩
    exact ⟨c, hc, hfrom, hto⟩
  · rintro ⟨c, hc, hfrom, hto⟩
    exact ⟨c, ⟨hc, hfrom⟩, hto⟩

/-- Soundness of the BFS: a `true` answer means the target was popped from
the queue, every element of which is reachable from the start. -/
theorem wccLoop_sound (connections : List Connection) (f t : String) :
    ∀ (fuel : Nat) (queue visited : List String),
      (∀ q ∈ queue, Relation.ReflTransGen (connStep connections) t q) →
      wccLoop (wccAdj connections) f fuel queue visited = true →
      Relation.ReflTransGen (connStep connections) t f := by
  intro fuel
  induction fuel with
  | zero => intro queue visited _ hrun; simp [wccLoop] at hrun
  | succ n ih =>
      intro queue visited hq hrun
      cases queue with
      | nil => simp [wccLoop] at hrun
      | cons current rest =>
          simp only [wccLoop] at hrun
          by_cases hcf : current = f
          · exact hcf ▸ hq current (by simp)
          · rw [if_neg hcf] at hrun
            by_cases hcv : current ∈ visited
            · rw [if_pos hcv] at hrun
              exact ih rest visited (fun q hq2 => hq q (List.mem_cons_of_mem _ hq2)) hrun
            · rw [if_neg hcv] at hrun
              apply ih _ _ _ hrun
              intro q hq2
              rcases List.mem_append.mp hq2 with h | h
              · exact hq q (List.mem_cons_of_mem _ h)
              · exact Relation.ReflTransGen.tail (hq current (by simp))
                  ((wccAdj_mem connections current q).mp h)

/-- A visited set that contains the start, is closed under forward steps and
avoids the target rules out reachability. -/
theorem no_reach_of_closed (connections : List Connection) (visited : List String)
    (f t : String) (h1 : ∀ v ∈ visited, v ≠ f)
    (h2 : ∀ v ∈ visited, ∀ w, connStep connections v w → w ∈ visited)
    (h3 : t ∈ visited) : ¬ Relation.ReflTransGen (connStep connections) t f := by
  intro hpath
  have hall : ∀ b, Relation.ReflTransGen (connStep connections) t b → b ∈ visited := by
    intro b hb
    induction hb with
    | refl => exact h3
    | tail _ hstep ih => exact h2 _ ih _ hstep
  exact h1 f (hall f hpath) rfl

/-- The decreasing potential of the BFS: one unit per unvisited universe
vertex plus its out-edges. -/
def wccMeasure (connections : List Connection) (t : String) (visited : List String) :
    Nat :=
  (((wccUniverse connections t).filter (fun v => decide (v ∉ visited))).map
    (fun v => 1 + (wccAdj connections v).length)).sum

/-- Removing a fresh element from the unvisited set splits off its
contribution to a filtered sum. -/
theorem sum_filter_visit (g : String → Nat) :
    ∀ (l visited : List String) (a : String), l.Nodup → a ∈ l → a ∉ visited →
      ((l.filter (fun v => decide (v ∉ visited))).map g).sum =
        g a + ((l.filter (fun v => decide (v ∉ visited ++ [a]))).map g).sum := by
  intro l
  induction l with
  | nil => intro visited a _ h; cases h
  | cons x rest ih =>
      intro visited a hnd hal hav
      simp only [List.nodup_cons] at hnd
      rcases List.mem_cons.mp hal with rfl | hmem
      · have h1 : decide (a ∉ visited) = true := by simpa using hav
        have h2 : decide (a ∉ visited ++ [a]) = false := by simp
        simp only [List.filter_cons, h1, h2, if_true, if_false, List.map_cons,
          List.sum_cons]
        have hcong : rest.filter (fun v => decide (v ∉ visited)) =
            rest.filter (fun v => decide (v ∉ visited ++ [a])) := by
          apply List.filter_congr
          intro v hv
          have hva : v ≠ a := fun h => hnd.1 (h ▸ hv)
          simp [List.mem_append, hva]
        rw [hcong]
        simp
      · have hxa : x ≠ a := fun h => hnd.1 (h ▸ hmem)
        have hsame : decide (x ∉ visited ++ [a]) = decide (x ∉ visited) := by
          simp [List.mem_append, hxa]
        by_cases hx : x ∉ visited
        · have hb : decide (x ∉ visited) = true := by simpa using hx
          simp only [List.filter_cons, hb, hsame, if_true, List.map_cons, List.sum_cons]
          rw [ih visited a hnd.2 hmem hav]
          omega
        · have hb : decide (x ∉ visited) = false := by simpa using hx
          simp only [List.filter_cons, hb, hsame, if_false]
          exact ih visited a hnd.2 hmem hav

/-- Visiting a fresh universe vertex removes its contribution from the BFS
potential. -/
theorem wccMeasure_split (connections : List Connection) (t : String)
    (visited : List String) (a : String) (hal : a ∈ wccUniverse connections t)
    (hav : a ∉ visited) :
    wccMeasure connections t visited =
      (1 + (wccAdj connections a).length) +
        wccMeasure connections t (visited ++ [a]) :=
  sum_filter_visit (fun v => 1 + (wccAdj connections v).length)
    (wccUniverse connections t) visited a (jsDedup_nodup _) hal hav

/-- Completeness of the BFS: a `false` answer (under the invariants the loop
maintains, with adequate fuel) rules out reachability. -/
theorem wccLoop_complete (connections : List Connection) (f t : String) :
    ∀ (fuel : Nat) (queue visited : List String),
      (∀ v ∈ visited, v ≠ f) →
      (∀ v ∈ visited, ∀ w, connStep connections v w → w ∈ visited ∨ w ∈ queue) →
      (t ∈ visited ∨ t ∈ queue) →
      (∀ x ∈ queue, x ∈ wccUniverse connections t) →
      (queue.length + wccMeasure connections t visited ≤ fuel) →
      wccLoop (wccAdj connections) f fuel queue visited = false →
      ¬ Relation.ReflTransGen (connStep connections) t f := by
  intro fuel
  induction fuel with
  | zero =>
      intro queue visited h1 h2 h3 h4 h5 _
      have hq : queue = [] := by
        cases queue with
        | nil => rfl
        | cons a b =>
            simp only [List.length_cons] at h5
            omega
      subst hq
      apply no_reach_of_closed connections visited f t h1
      · intro v hv w hw
        rcases h2 v hv w hw with h | h
        · exact h
        · cases h
      · rcases h3 with h | h
        · exact h
        · cases h
  | succ n ih =>
      intro queue visited h1 h2 h3 h4 h5 hrun
      cases queue with
      | nil =>
          apply no_reach_of_closed connections visited f t h1
          · intro v hv w hw
            rcases h2 v hv w hw with h | h
            · exact h
            · cases h
          · rcases h3 with h | h
            · exact h
            · cases h
      | cons current rest =>
          simp only [wccLoop] at hrun
          by_cases hcf : current = f
          · rw [if_pos hcf] at hrun
            exact absurd hrun (by simp)
          · rw [if_neg hcf] at hrun
            by_cases hcv : current ∈ visited
            · rw [if_pos hcv] at hrun
              apply ih rest visited h1 ?_ ?_ ?_ ?_ hrun
              · intro v hv w hw
                rcases h2 v hv w hw with h | h
                · exact Or.inl h
                · rcases List.mem_cons.mp h with rfl | h
                  · exact Or.inl hcv
                  · exact Or.inr h
              · rcases h3 with h | h
                · exact Or.inl h
                · rcases List.mem_cons.mp h with rfl | h
                  · exact Or.inl hcv
                  · exact Or.inr h
              · exact fun x hx => h4 x (List.mem_cons_of_mem _ hx)
              · simp only [List.length_cons] at h5
                omega
            · rw [if_neg hcv] at hrun
              have hcu : current ∈ wccUniverse connections t := h4 current (by simp)
              have hsplit := wccMeasure_split connections t visited current hcu hcv
              apply ih (rest ++ wccAdj connections current) (visited ++ [current])
                ?_ ?_ ?_ ?_ ?_ hrun
              · intro v hv
                rcases List.mem_append.mp hv with h | h
                · exact h1 v h
                · rcases List.mem_singleton.mp h with rfl
                  exact hcf
              · intro v hv w hw
                rcases List.mem_append.mp hv with h | h
                · rcases h2 v h w hw with h2w | h2w
                  · exact Or.inl (List.mem_append_left _ h2w)
                  · rcases List.mem_cons.mp h2w with rfl | h2w
                    · exact Or.inl (List.mem_append_right _ (by simp))
                    · exact Or.inr (List.mem_append_left _ h2w)
                · rcases List.mem_singleton.mp h with rfl
                  exact Or.inr (List.mem_append_right _ ((wccAdj_mem _ _ _).mpr hw))
              · rcases h3 with h | h
                · exact Or.inl (List.mem_append_left _ h)
                · rcases List.mem_cons.mp h with rfl | h
                  · exact Or.inl (List.mem_append_right _ (by simp))
                  · exact Or.inr (List.mem_append_left _ h)
              · intro x hx
                rcases List.mem_append.mp hx with h | h
                · exact h4 x (List.mem_cons_of_mem _ h)
                · apply (mem_jsDedup _ _).mpr
                  rcases (wccAdj_mem connections current x).mp h with ⟨c, hc, _, hto⟩
                  exact List.mem_cons_of_mem _
                    (hto ▸ List.mem_map_of_mem (fun c => c.toNodeId) hc)
              · rw [List.length_append]
                simp only [List.length_cons] at h5
                rw [hsplit] at h5
                omega

/-- C7: `wouldCreateCycle` returns true exactly when the candidate wire is a
direct self-connection or its source is forward-reachable from its
destination over the existing connections; in particular it returns false
whenever adding the candidate wire leaves the connection graph acyclic. -/
theorem claim7_wouldCreateCycle_reachability (connections : List Connection)
    (f t : String) :
    (wouldCreateCycle connections f t = true ↔
      f = t ∨ Relation.ReflTransGen (connStep connections) t f) ∧
    (∀ newC : Connection, newC.fromNodeId = f → newC.toNodeId = t →
      (∀ x, ¬ Relation.TransGen (connStep (connections ++ [newC])) x x) →
      wouldCreateCycle connections f t = false) := by
  have main : wouldCreateCycle connections f t = true ↔
      f = t ∨ Relation.ReflTransGen (connStep connections) t f := by
    unfold wouldCreateCycle
    by_cases hft : f = t
    · simp [hft]
    · rw [if_neg hft]
      constructor
      · intro hrun
        refine Or.inr (wccLoop_sound connections f t _ [t] [] ?_ hrun)
        intro q hq
        rcases List.mem_singleton.mp hq with rfl
        exact Relation.ReflTransGen.refl
      · rintro (h | h)
        · exact absurd h hft
        · by_contra hfalse
          rw [Bool.not_eq_true] at hfalse
          refine wccLoop_complete connections f t _ [t] [] (by simp) (by simp)
            (Or.inr (by simp)) ?_ ?_ hfalse h
          · intro x hx
            rcases List.mem_singleton.mp hx with rfl
            exact (mem_jsDedup _ _).mpr (by simp)
          · have hm : wccMeasure connections t [] =
                ((wccUniverse connections t).map
                  (fun v => 1 + (wccAdj connections v).length)).sum := by
              unfold wccMeasure
              congr 1
              congr 1
              apply List.filter_eq_self.mpr
              intro v _
              simp
            simp only [List.length_singleton, hm]
            omega
  refine ⟨main, ?_⟩
  intro newC hfrom hto hacyc
  by_contra hne
  have htrue : wouldCreateCycle connections f t = true := by
    cases hb : wouldCreateCycle connections f t
    · exact absurd hb hne
    · rfl
  rcases main.mp htrue with rfl | hreach
  · exact hacyc f (Relation.TransGen.single
      ⟨newC, List.mem_append_right _ (by simp), hfrom, hto⟩)
  · apply hacyc t
    have hlift : Relation.ReflTransGen (connStep (connections ++ [newC])) t f := by
      refine Relation.ReflTransGen.mono ?_ hreach
      rintro a b ⟨c, hc, hz1, hz2⟩
      exact ⟨c, List.mem_append_left _ hc, hz1, hz2⟩
    exact Relation.TransGen.tail' hlift
      ⟨newC, List.mem_append_right _ (by simp), hfrom, hto⟩

/-- The existing wire of the C7 witness. -/
def wccWitConn : Connection :=
  { id := "w", fromNodeId := "A", fromPinIndex := 0, toNodeId := "B", toPinIndex := 0 }

/-- The candidate wire of the C7 witness (a DAG-extending edge). -/
def wccWitNew : Connection :=
  { id := "x", fromNodeId := "B", fromPinIndex := 0, toNodeId := "C", toPinIndex := 0 }

/-- Witness for C7: adding `B → C` on top of `A → B` stays acyclic, and the
probe answers false. -/
theorem claim7_wouldCreateCycle_reachability_witness :
    wouldCreateCycle [wccWitConn] "B" "C" = false :=
  (claim7_wouldCreateCycle_reachability [wccWitConn] "B" "C").2 wccWitNew rfl rfl
    (acyclic_of_rank ([wccWitConn] ++ [wccWitNew])
      (fun s => if s = "B" then 1 else if s = "C" then 2 else 0) (by decide))

/-! ## Kahn loop: invariants and the evaluation-sequence contract -/

/-- A successor sweep decrements each (distinct) successor once and enqueues
exactly those whose count was 1. -/
theorem processSuccs_char (succs : List String) :
    ∀ (inDeg : String → Int) (queue : List String), succs.Nodup →
    processSuccs succs (inDeg, queue) =
      (fun x => if x ∈ succs then inDeg x - 1 else inDeg x,
       queue ++ succs.filter (fun x => inDeg x == 1)) := by
  induction succs with
  | nil =>
      intro inDeg queue _
      simp only [processSuccs, List.foldl_nil, List.filter_nil, List.append_nil]
      refine Prod.ext ?_ rfl
      funext x
      simp
  | cons s rest ih =>
      intro inDeg queue hnd
      simp only [List.nodup_cons] at hnd
      have hstep : succStep (inDeg, queue) s =
          (fun x => if x = s then inDeg s - 1 else inDeg x,
           if inDeg s - 1 = 0 then queue ++ [s] else queue) := rfl
      have hrec : processSuccs (s :: rest) (inDeg, queue) =
          processSuccs rest (succStep (inDeg, queue) s) := rfl
      rw [hrec, hstep, ih _ _ hnd.2]
      refine Prod.ext ?_ ?_
      · funext x
        simp only
        by_cases hxr : x ∈ rest
        · have hxs : x ≠ s := fun h => hnd.1 (h ▸ hxr)
          simp [hxr, hxs, List.mem_cons]
        · by_cases hxs : x = s
          · subst hxs
            simp [hxr, List.mem_cons]
          · simp [hxr, hxs, List.mem_cons]
      · simp only
        have hfc : rest.filter (fun x => (if x = s then inDeg s - 1 else inDeg x) == 1) =
            rest.filter (fun x => inDeg x == 1) := by
          apply List.filter_congr
          intro x hx
          have hxs : x ≠ s := fun h => hnd.1 (h ▸ hx)
          simp [hxs]
        rw [hfc]
        by_cases hs : inDeg s - 1 = 0
        · have hs1 : (inDeg s == 1) = true := by
            simp only [beq_iff_eq]
            omega
          simp only [hs, if_true, List.filter_cons, hs1, if_true, List.append_assoc,
            List.singleton_append]
        · have hs1 : (inDeg s == 1) = false := by
            simp only [beq_eq_false_iff_ne, ne_eq]
            intro h
            omega
          simp only [hs, if_false, List.filter_cons, hs1]
          simp

/-- Adjacency symmetry: `x` is a successor of `a` exactly when `a` is a
predecessor of `x`. -/
theorem outAdj_inAdj_symm (nodes : List CircuitNode) (connections : List Connection)
    (a x : String) :
    x ∈ outAdj nodes connections a ↔ a ∈ inAdj nodes connections x := by
  unfold outAdj inAdj
  rw [mem_jsDedup, mem_jsDedup]
  simp only [List.mem_map, List.mem_filter, Bool.and_eq_true, beq_iff_eq]
  constructor
  · rintro ⟨c, ⟨hc, hp, hfrom⟩, hto⟩
    exact ⟨c, ⟨hc, hp, hto⟩, hfrom⟩
  · rintro ⟨c, ⟨hc, hp, hto⟩, hfrom⟩
    exact ⟨c, ⟨hc, hp, hfrom⟩, hto⟩

/-- Successor lists are duplicate-free. -/
theorem outAdj_nodup (nodes : List CircuitNode) (connections : List Connection)
    (a : String) : (outAdj nodes connections a).Nodup := jsDedup_nodup _

/-- Predecessor lists are duplicate-free. -/
theorem inAdj_nodup (nodes : List CircuitNode) (connections : List Connection)
    (x : String) : (inAdj nodes connections x).Nodup := jsDedup_nodup _

/-- Successors are present node ids. -/
theorem outAdj_subset (nodes : List CircuitNode) (connections : List Connection)
    (a x : String) (h : x ∈ outAdj nodes connections a) :
    x ∈ nodes.map (fun n => n.id) := by
  unfold outAdj at h
  rw [mem_jsDedup] at h
  simp only [List.mem_map, List.mem_filter, Bool.and_eq_true, beq_iff_eq] at h
  rcases h with ⟨c, ⟨_, hp, _⟩, hto⟩
  unfold presentBoth at hp
  simp only [Bool.and_eq_true, List.any_eq_true, beq_iff_eq] at hp
  rcases hp.2 with ⟨n, hn, hid⟩
  subst hto
  exact hid ▸ List.mem_map_of_mem (fun n => n.id) hn

/-- Length variant of `sum_filter_visit`. -/
theorem length_filter_visit (l visited : List String) (a : String) (hnd : l.Nodup)
    (hal : a ∈ l) (hav : a ∉ visited) :
    (l.filter (fun v => decide (v ∉ visited))).length =
      1 + (l.filter (fun v => decide (v ∉ visited ++ [a]))).length := by
  have h := sum_filter_visit (fun _ => 1) l visited a hnd hal hav
  simpa [List.map_const', List.sum_replicate] using h

/-- Filters against `visited` and `visited ++ [a]` agree away from `a`. -/
theorem filter_visit_of_not_mem (l visited : List String) (a : String)
    (hna : a ∉ l) :
    l.filter (fun v => decide (v ∉ visited ++ [a])) =
      l.filter (fun v => decide (v ∉ visited)) := by
  apply List.filter_congr
  intro v hv
  have : v ≠ a := fun h => hna (h ▸ hv)
  simp [List.mem_append, this]

/-- Sum over a list distributes over pointwise addition. -/
theorem sum_map_add (l : List String) (g e : String → Nat) :
    (l.map (fun x => g x + e x)).sum = (l.map g).sum + (l.map e).sum := by
  induction l with
  | nil => rfl
  | cons x rest ih =>
      simp only [List.map_cons, List.sum_cons, ih]
      omega

/-- A sum of indicator values is a filtered length. -/
theorem sum_indicator (l : List String) (P : String → Prop) [DecidablePred P] :
    (l.map (fun x => if P x then 1 else 0)).sum =
      (l.filter (fun x => decide (P x))).length := by
  induction l with
  | nil => rfl
  | cons x rest ih =>
      simp only [List.map_cons, List.sum_cons, List.filter_cons]
      by_cases hx : P x
      · simp only [hx, if_true, decide_eq_true_eq, List.length_cons, ih]
        omega
      · simp [hx, ih]

/-- Two duplicate-free lists with the same members have equal lengths. -/
theorem length_eq_of_nodup_mem_iff {l1 l2 : List String} (h1 : l1.Nodup)
    (h2 : l2.Nodup) (h : ∀ x, x ∈ l1 ↔ x ∈ l2) : l1.length = l2.length :=
  ((List.perm_ext_iff_of_nodup h1 h2).mpr h).length_eq

/-- The remaining-degree potential of the Kahn loop: the total number of
predecessor edges not yet consumed by the sorted output. -/
def kahnPotential (nodes : List CircuitNode) (connections : List Connection)
    (sorted : List String) : Nat :=
  ((nodes.map (fun n => n.id)).map
    (fun x => ((inAdj nodes connections x).filter
      (fun p => decide (p ∉ sorted))).length)).sum

/-- Appending a fresh id to the sorted output lowers the potential by its
out-degree. -/
theorem kahnPotential_pop (nodes : List CircuitNode) (connections : List Connection)
    (hK : (nodes.map (fun n => n.id)).Nodup) (sorted : List String) (id : String)
    (hid : id ∉ sorted) :
    kahnPotential nodes connections sorted =
      (outAdj nodes connections id).length +
        kahnPotential nodes connections (sorted ++ [id]) := by
  unfold kahnPotential
  have hpt : ∀ x, ((inAdj nodes connections x).filter
        (fun p => decide (p ∉ sorted))).length =
      ((inAdj nodes connections x).filter
        (fun p => decide (p ∉ sorted ++ [id]))).length +
      (if x ∈ outAdj nodes connections id then 1 else 0) := by
    intro x
    by_cases hx : x ∈ outAdj nodes connections id
    · have hin : id ∈ inAdj nodes connections x := (outAdj_inAdj_symm _ _ _ _).mp hx
      rw [length_filter_visit (inAdj nodes connections x) sorted id
        (inAdj_nodup _ _ _) hin hid]
      simp only [hx, if_true]
      omega
    · have hin : id ∉ inAdj nodes connections x :=
        fun h => hx ((outAdj_inAdj_symm _ _ _ _).mpr h)
      rw [filter_visit_of_not_mem (inAdj nodes connections x) sorted id hin]
      simp [hx]
  have hmapeq : ((nodes.map (fun n => n.id)).map
      (fun x => ((inAdj nodes connections x).filter
        (fun p => decide (p ∉ sorted))).length)).sum =
    ((nodes.map (fun n => n.id)).map
      (fun x => ((inAdj nodes connections x).filter
        (fun p => decide (p ∉ sorted ++ [id]))).length)).sum +
    ((nodes.map (fun n => n.id)).map
      (fun x => if x ∈ outAdj nodes connections id then 1 else 0)).sum := by
    rw [← sum_map_add]
    congr 1
    apply List.map_congr_left
    intro x _
    exact hpt x
  rw [hmapeq, sum_indicator]
  have hcount : ((nodes.map (fun n => n.id)).filter
      (fun x => decide (x ∈ outAdj nodes connections id))).length =
      (outAdj nodes connections id).length := by
    apply length_eq_of_nodup_mem_iff (List.Nodup.filter _ hK) (outAdj_nodup _ _ _)
    intro x
    rw [List.mem_filter]
    constructor
    · rintro ⟨_, hx⟩
      simpa using hx
    · intro hx
      exact ⟨outAdj_subset nodes connections id x hx, by simpa using hx⟩
  rw [hcount]
  omega

/-- The loop invariant of Kahn's algorithm as implemented: the processed and
queued ids are distinct node ids; the in-degree map counts predecessors not
yet sorted; processed and queued ids have all predecessors sorted; the
sorted output respects dependencies. -/
structure KahnInv (nodes : List CircuitNode) (connections : List Connection)
    (queue : List String) (inDeg : String → Int) (sorted : List String) : Prop where
  nodup : (sorted ++ queue).Nodup
  subK : ∀ x ∈ sorted ++ queue, x ∈ nodes.map (fun n => n.id)
  deg : ∀ x ∈ nodes.map (fun n => n.id),
    inDeg x = (((inAdj nodes connections x).filter
      (fun p => decide (p ∉ sorted))).length : Int)
  done : ∀ x ∈ sorted ++ queue, ∀ p ∈ inAdj nodes connections x, p ∈ sorted
  order : ∀ l1 x l2, sorted = l1 ++ x :: l2 → ∀ p ∈ inAdj nodes connections x, p ∈ l1

/-- Decomposing a one-element extension of a list. -/
theorem append_singleton_decomp (sorted : List String) (id : String)
    (l1 l2 : List String) (x : String) (h : sorted ++ [id] = l1 ++ x :: l2) :
    (∃ l2b, sorted = l1 ++ x :: l2b) ∨ (x = id ∧ l1 = sorted ∧ l2 = []) := by
  rcases List.eq_nil_or_concat l2 with rfl | ⟨l2b, b, rfl⟩
  · have h2 : sorted ++ [id] = l1 ++ [x] := by simpa using h
    rcases List.append_inj' h2 rfl with ⟨hs, hx⟩
    right
    refine ⟨?_, hs.symm, rfl⟩
    have := hx.symm
    simpa using this
  · have h2 : sorted ++ [id] = (l1 ++ x :: l2b) ++ [b] := by
      rw [h]
      simp [List.concat_eq_append]
    rcases List.append_inj' h2 rfl with ⟨hs, _⟩
    left
    exact ⟨l2b, hs⟩

/-- One iteration of the Kahn loop preserves the invariant and strictly
decreases queue length plus potential. -/
theorem kahnInv_step (nodes : List CircuitNode) (connections : List Connection)
    (hK : (nodes.map (fun n => n.id)).Nodup)
    (id : String) (rest : List String) (inDeg : String → Int) (sorted : List String)
    (inv : KahnInv nodes connections (id :: rest) inDeg sorted) :
    KahnInv nodes connections
      (rest ++ (outAdj nodes connections id).filter (fun x => inDeg x == 1))
      (fun x => if x ∈ outAdj nodes connections id then inDeg x - 1 else inDeg x)
      (sorted ++ [id]) ∧
    (rest ++ (outAdj nodes connections id).filter (fun x => inDeg x == 1)).length +
        kahnPotential nodes connections (sorted ++ [id]) ≤
      rest.length + kahnPotential nodes connections sorted := by
  have hidK : id ∈ nodes.map (fun n => n.id) := inv.subK id (by simp)
  have hnodup := inv.nodup
  have hidns : id ∉ sorted := by
    rw [List.nodup_append] at hnodup
    exact fun h => hnodup.2.2 h (by simp)
  have hpredid : ∀ p ∈ inAdj nodes connections id, p ∈ sorted := inv.done id (by simp)
  have hfresh : ∀ p, p ∈ outAdj nodes connections id → inDeg p = 1 →
      p ∉ sorted ++ (id :: rest) := by
    intro p hpadj hp1 hmem
    have hpK := outAdj_subset nodes connections id p hpadj
    have hdone := inv.done p hmem
    have hdeg := inv.deg p hpK
    have hzero : ((inAdj nodes connections p).filter
        (fun q => decide (q ∉ sorted))).length = 0 := by
      rw [List.length_eq_zero, List.filter_eq_nil]
      intro q hq
      simpa using hdone q hq
    rw [hzero] at hdeg
    omega
  set pushes := (outAdj nodes connections id).filter (fun x => inDeg x == 1) with hpushes
  have hpushmem : ∀ p ∈ pushes, p ∈ outAdj nodes connections id ∧ inDeg p = 1 := by
    intro p hp
    rw [hpushes, List.mem_filter] at hp
    exact ⟨hp.1, by simpa using hp.2⟩
  have hsplit : sorted ++ id :: rest = (sorted ++ [id]) ++ rest := by simp
  have hnodup2 : ((sorted ++ [id]) ++ rest).Nodup := by
    rw [← hsplit]
    exact inv.nodup
  constructor
  · constructor
    · -- nodup
      rw [List.nodup_append] at hnodup2 ⊢
      refine ⟨hnodup2.1, ?_, ?_⟩
      · rw [List.nodup_append]
        refine ⟨hnodup2.2.1, List.Nodup.filter _ (outAdj_nodup _ _ _), ?_⟩
        intro p hpr hpp
        rcases hpushmem p hpp with ⟨hpadj, hp1⟩
        exact hfresh p hpadj hp1 (List.mem_append_right _ (List.mem_cons_of_mem _ hpr))
      · intro p hpA hp2
        rcases List.mem_append.mp hp2 with hpr | hpp
        · exact hnodup2.2.2 hpA hpr
        · rcases hpushmem p hpp with ⟨hpadj, hp1⟩
          apply hfresh p hpadj hp1
          rcases List.mem_append.mp hpA with hps | hpi
          · exact List.mem_append_left _ hps
          · rcases List.mem_singleton.mp hpi with rfl
            exact List.mem_append_right _ (by simp)
    · -- subK
      intro x hx
      rcases List.mem_append.mp hx with hxA | hxq
      · rcases List.mem_append.mp hxA with hxs | hxi
        · exact inv.subK x (List.mem_append_left _ hxs)
        · rcases List.mem_singleton.mp hxi with rfl
          exact hidK
      · rcases List.mem_append.mp hxq with hxr | hxp
        · exact inv.subK x (List.mem_append_right _ (List.mem_cons_of_mem _ hxr))
        · exact outAdj_subset nodes connections id x (hpushmem x hxp).1
    · -- deg
      intro x hxK
      have hdeg := inv.deg x hxK
      by_cases hx : x ∈ outAdj nodes connections id
      · have hin : id ∈ inAdj nodes connections x := (outAdj_inAdj_symm _ _ _ _).mp hx
        have hlen := length_filter_visit (inAdj nodes connections x) sorted id
          (inAdj_nodup _ _ _) hin hidns
        simp only [hx, if_true]
        rw [hdeg, hlen]
        push_cast
        omega
      · have hin : id ∉ inAdj nodes connections x :=
          fun h => hx ((outAdj_inAdj_symm _ _ _ _).mpr h)
        simp only [hx, if_false]
        rw [hdeg, filter_visit_of_not_mem (inAdj nodes connections x) sorted id hin]
    · -- done
      intro x hx p hp
      have hsub : ∀ q ∈ sorted, q ∈ sorted ++ [id] := fun q hq => List.mem_append_left _ hq
      rcases List.mem_append.mp hx with hxA | hxq
      · rcases List.mem_append.mp hxA with hxs | hxi
        · exact hsub p (inv.done x (List.mem_append_left _ hxs) p hp)
        · rcases List.mem_singleton.mp hxi with rfl
          exact hsub p (hpredid p hp)
      · rcases List.mem_append.mp hxq with hxr | hxp
        · exact hsub p (inv.done x
            (List.mem_append_right _ (List.mem_cons_of_mem _ hxr)) p hp)
        · rcases hpushmem x hxp with ⟨hxadj, hx1⟩
          have hxK := outAdj_subset nodes connections id x hxadj
          have hdeg := inv.deg x hxK
          have hlenOld : ((inAdj nodes connections x).filter
              (fun q => decide (q ∉ sorted))).length = 1 := by
            rw [hdeg] at hx1
            exact_mod_cast hx1
          have hin : id ∈ inAdj nodes connections x := (outAdj_inAdj_symm _ _ _ _).mp hxadj
          have hlen := length_filter_visit (inAdj nodes connections x) sorted id
            (inAdj_nodup _ _ _) hin hidns
          rw [hlenOld] at hlen
          have hnil : (inAdj nodes connections x).filter
              (fun q => decide (q ∉ sorted ++ [id])) = [] := by
            rw [← List.length_eq_zero]
            omega
          rw [List.filter_eq_nil] at hnil
          have := hnil p hp
          rw [List.mem_append, List.mem_singleton]
          simp only [decide_not] at this
          by_cases hps : p ∈ sorted
          · exact Or.inl hps
          · exact Or.inr (by simpa [hps] using this)
    · -- order
      intro l1 x l2 hdecomp p hp
      rcases append_singleton_decomp sorted id l1 l2 x hdecomp with ⟨l2b, hs⟩ | ⟨rfl, rfl, rfl⟩
      · exact inv.order l1 x l2b hs p hp
      · exact hpredid p hp
  · -- measure
    have hpop := kahnPotential_pop nodes connections hK sorted id hidns
    have hple : pushes.length ≤ (outAdj nodes connections id).length := by
      rw [hpushes]
      exact List.length_filter_le _ _
    rw [List.length_append, hpop]
    omega

/-- Deduplication never lengthens a list. -/
theorem jsDedup_fold_length_le : ∀ (l acc : List String),
    (l.foldl (fun acc x => if x ∈ acc then acc else acc ++ [x]) acc).length ≤
      acc.length + l.length := by
  intro l
  induction l with
  | nil => intro acc; simp
  | cons x rest ih =>
      intro acc
      simp only [List.foldl_cons]
      by_cases hx : x ∈ acc
      · simp only [hx, if_true, List.length_cons]
        calc _ ≤ acc.length + rest.length := ih acc
          _ ≤ acc.length + (rest.length + 1) := by omega
      · simp only [hx, if_false, List.length_cons]
        calc _ ≤ (acc ++ [x]).length + rest.length := ih (acc ++ [x])
          _ = acc.length + (rest.length + 1) := by simp; omega

/-- `jsDedup` never lengthens a list. -/
theorem jsDedup_length_le (l : List String) : (jsDedup l).length ≤ l.length := by
  have := jsDedup_fold_length_le l []
  simpa using this

/-- Summing, over distinct keys, the number of list elements matching each
key is at most the list length, when each element matches at most one key. -/
theorem sum_count_le (K : List String) (conns : List Connection)
    (p : Connection → String → Bool) (hK : K.Nodup)
    (huniq : ∀ c x y, p c x = true → p c y = true → x = y) :
    (K.map (fun x => (conns.filter (fun c => p c x)).length)).sum ≤ conns.length := by
  induction conns with
  | nil =>
      have : ∀ x ∈ K, (List.filter (fun c => p c x) []).length = 0 := by
        intro x _
        simp
      calc (K.map (fun x => (List.filter (fun c => p c x) []).length)).sum
          ≤ (K.map (fun _ => 0)).sum := List.sum_le_sum (fun x hx => le_of_eq (this x hx))
        _ = 0 := by simp [List.map_const', List.sum_replicate]
        _ ≤ _ := Nat.zero_le _
  | cons c rest ih =>
      have hpt : ∀ x, (List.filter (fun cc => p cc x) (c :: rest)).length =
          (List.filter (fun cc => p cc x) rest).length + (if p c x then 1 else 0) := by
        intro x
        simp only [List.filter_cons]
        by_cases hc : p c x = true
        · simp [hc]
        · simp [hc]
      have hsum : (K.map (fun x => (List.filter (fun cc => p cc x) (c :: rest)).length)).sum =
          (K.map (fun x => (List.filter (fun cc => p cc x) rest).length)).sum +
          (K.map (fun x => if p c x then 1 else 0)).sum := by
        rw [← sum_map_add]
        congr 1
        apply List.map_congr_left
        intro x _
        exact hpt x
      have hind : (K.map (fun x => if p c x then 1 else 0)).sum =
          (K.filter (fun x => decide (p c x = true))).length := sum_indicator K _
      have hone : (K.filter (fun x => decide (p c x = true))).length ≤ 1 := by
        cases hf : K.filter (fun x => decide (p c x = true)) with
        | nil => simp
        | cons a tail =>
            cases tail with
            | nil => simp
            | cons b tail2 =>
                exfalso
                have hnd : (a :: b :: tail2).Nodup := hf ▸ List.Nodup.filter _ hK
                have hamem : a ∈ K.filter (fun x => decide (p c x = true)) := by
                  rw [hf]; simp
                have hbmem : b ∈ K.filter (fun x => decide (p c x = true)) := by
                  rw [hf]; simp
                rw [List.mem_filter] at hamem hbmem
                have hab : a = b := huniq c a b (by simpa using hamem.2) (by simpa using hbmem.2)
                simp only [List.nodup_cons] at hnd
                exact hnd.1 (hab ▸ List.mem_cons_self b tail2)
      simp only [List.length_cons]
      rw [hsum, hind]
      omega

/-- The initial potential is bounded by the connection count: each connection
feeds at most one deduplicated predecessor entry. -/
theorem kahnPotential_nil_le (nodes : List CircuitNode) (connections : List Connection)
    (hK : (nodes.map (fun n => n.id)).Nodup) :
    kahnPotential nodes connections [] ≤ connections.length := by
  unfold kahnPotential
  have hpt : ∀ x, ((inAdj nodes connections x).filter
      (fun p => decide (p ∉ ([] : List String)))).length ≤
      (connections.filter (fun c => presentBoth nodes c && c.toNodeId == x)).length := by
    intro x
    calc ((inAdj nodes connections x).filter (fun p => decide (p ∉ ([] : List String)))).length
        ≤ (inAdj nodes connections x).length := List.length_filter_le _ _
      _ ≤ ((connections.filter (fun c => presentBoth nodes c && c.toNodeId == x)).map
            (fun c => c.fromNodeId)).length := jsDedup_length_le _
      _ = _ := List.length_map _ _
  calc ((nodes.map (fun n => n.id)).map
        (fun x => ((inAdj nodes connections x).filter
          (fun p => decide (p ∉ ([] : List String)))).length)).sum
      ≤ ((nodes.map (fun n => n.id)).map
          (fun x => (connections.filter
            (fun c => presentBoth nodes c && c.toNodeId == x)).length)).sum :=
        List.sum_le_sum (fun x _ => hpt x)
    _ ≤ connections.length := by
        apply sum_count_le _ _ _ hK
        intro c x y hx hy
        simp only [Bool.and_eq_true, beq_iff_eq] at hx hy
        rw [← hx.2, ← hy.2]

/-- The master lemma for the Kahn loop: starting from the invariant with
adequate fuel, the returned sequence is duplicate-free, made of node ids,
and dependency-respecting. -/
theorem kahnLoop_master (nodes : List CircuitNode) (connections : List Connection)
    (hK : (nodes.map (fun n => n.id)).Nodup) :
    ∀ (fuel : Nat) (queue : List String) (inDeg : String → Int) (sorted : List String),
      KahnInv nodes connections queue inDeg sorted →
      queue.length + kahnPotential nodes connections sorted ≤ fuel →
      (kahnLoop (outAdj nodes connections) fuel queue inDeg sorted).Nodup ∧
      (∀ x ∈ kahnLoop (outAdj nodes connections) fuel queue inDeg sorted,
        x ∈ nodes.map (fun n => n.id)) ∧
      (∀ l1 x l2, kahnLoop (outAdj nodes connections) fuel queue inDeg sorted =
          l1 ++ x :: l2 → ∀ p ∈ inAdj nodes connections x, p ∈ l1) := by
  intro fuel
  induction fuel with
  | zero =>
      intro queue inDeg sorted inv hfuel
      have hq : queue = [] := by
        cases queue with
        | nil => rfl
        | cons a b => simp only [List.length_cons] at hfuel; omega
      subst hq
      simp only [kahnLoop]
      exact ⟨by simpa using inv.nodup, fun x hx => inv.subK x (by simpa using hx),
        inv.order⟩
  | succ n ih =>
      intro queue inDeg sorted inv hfuel
      cases queue with
      | nil =>
          simp only [kahnLoop]
          exact ⟨by simpa using inv.nodup, fun x hx => inv.subK x (by simpa using hx),
            inv.order⟩
      | cons id rest =>
          have hrw : kahnLoop (outAdj nodes connections) (n + 1) (id :: rest) inDeg
              sorted =
            kahnLoop (outAdj nodes connections) n
              (rest ++ (outAdj nodes connections id).filter (fun x => inDeg x == 1))
              (fun x => if x ∈ outAdj nodes connections id then inDeg x - 1 else inDeg x)
              (sorted ++ [id]) := by
            show kahnLoop (outAdj nodes connections) n
                (processSuccs (outAdj nodes connections id) (inDeg, rest)).2
                (processSuccs (outAdj nodes connections id) (inDeg, rest)).1
                (sorted ++ [id]) = _
            rw [processSuccs_char (outAdj nodes connections id) inDeg rest
              (outAdj_nodup _ _ _)]
          rcases kahnInv_step nodes connections hK id rest inDeg sorted inv with
            ⟨inv2, hmeas⟩
          rw [hrw]
          apply ih _ _ _ inv2
          simp only [List.length_cons] at hfuel
          omega

/-- The Kahn output of `evaluateCircuit` (under distinct node ids) is a
duplicate-free list of node ids in which every entry follows all of its
predecessors. -/
theorem kahnSorted_spec (nodes : List CircuitNode) (connections : List Connection)
    (hK : (nodes.map (fun n => n.id)).Nodup) :
    (kahnSorted nodes connections).Nodup ∧
    (∀ x ∈ kahnSorted nodes connections, x ∈ nodes.map (fun n => n.id)) ∧
    (∀ l1 x l2, kahnSorted nodes connections = l1 ++ x :: l2 →
      ∀ p ∈ inAdj nodes connections x, p ∈ l1) := by
  have hinv : KahnInv nodes connections
      ((nodes.map (fun n => n.id)).filter
        (fun x => ((inAdj nodes connections x).length : Int) == 0))
      (fun x => ((inAdj nodes connections x).length : Int)) [] := by
    constructor
    · simp only [List.nil_append]
      exact List.Nodup.filter _ hK
    · intro x hx
      simp only [List.nil_append, List.mem_filter] at hx
      exact hx.1
    · intro x _
      have hfe : (inAdj nodes connections x).filter
          (fun p => decide (p ∉ ([] : List String))) = inAdj nodes connections x := by
        rw [List.filter_eq_self]
        intro p _
        simp
      rw [hfe]
    · intro x hx p hp
      simp only [List.nil_append, List.mem_filter] at hx
      have hz : (inAdj nodes connections x).length = 0 := by
        have := hx.2
        simp only [beq_iff_eq] at this
        exact_mod_cast this
      rw [List.length_eq_zero] at hz
      rw [hz] at hp
      cases hp
    · intro l1 x l2 h
      cases l1 <;> simp at h
  have hfuel : ((nodes.map (fun n => n.id)).filter
        (fun x => ((inAdj nodes connections x).length : Int) == 0)).length +
      kahnPotential nodes connections [] ≤
      nodes.length + connections.length + 1 := by
    have h1 : ((nodes.map (fun n => n.id)).filter
        (fun x => ((inAdj nodes connections x).length : Int) == 0)).length ≤
        nodes.length := by
      calc _ ≤ (nodes.map (fun n => n.id)).length := List.length_filter_le _ _
        _ = nodes.length := List.length_map _ _
    have h2 := kahnPotential_nil_le nodes connections hK
    omega
  exact kahnLoop_master nodes connections hK (nodes.length + connections.length + 1)
    _ _ [] hinv hfuel

/-- Under distinct node ids, the cycle-collection fold appends exactly the
ids missing from the initial sequence, in node-list order. -/
theorem collectCycle_char : ∀ (nodes : List CircuitNode) (s0 c0 : List String),
    (nodes.map (fun n => n.id)).Nodup →
    nodes.foldl (fun (q : List String × List String) n =>
        if n.id ∈ q.1 then q else (q.1 ++ [n.id], q.2 ++ [n.id])) (s0, c0) =
      (s0 ++ (nodes.filter (fun n => decide (n.id ∉ s0))).map (fun n => n.id),
       c0 ++ (nodes.filter (fun n => decide (n.id ∉ s0))).map (fun n => n.id)) := by
  intro nodes
  induction nodes with
  | nil => intro s0 c0 _; simp
  | cons n rest ih =>
      intro s0 c0 hK
      simp only [List.map_cons, List.nodup_cons] at hK
      simp only [List.foldl_cons]
      by_cases hn : n.id ∈ s0
      · simp only [hn, if_true]
        rw [ih s0 c0 hK.2]
        have hd : decide (n.id ∉ s0) = false := by simpa using hn
        simp only [List.filter_cons, hd]
        simp
      · simp only [hn, if_false]
        rw [ih (s0 ++ [n.id]) (c0 ++ [n.id]) hK.2]
        have hl : rest.filter (fun m => decide (m.id ∉ s0 ++ [n.id])) =
            rest.filter (fun m => decide (m.id ∉ s0)) := by
          apply List.filter_congr
          intro m hm
          have hmn : m.id ≠ n.id :=
            fun h => hK.1 (h ▸ List.mem_map_of_mem (fun n => n.id) hm)
          simp [List.mem_append, hmn]
        have hp : decide (n.id ∉ s0) = true := by simpa using hn
        simp only [List.filter_cons, hp, if_true, List.map_cons, hl]
        refine Prod.ext ?_ ?_ <;> simp

/-- Mapping ids commutes with filtering on an id predicate. -/
theorem map_id_filter (nodes : List CircuitNode) (pred : String → Prop)
    [DecidablePred pred] :
    (nodes.filter (fun n => decide (pred n.id))).map (fun n => n.id) =
      (nodes.map (fun n => n.id)).filter (fun s => decide (pred s)) := by
  induction nodes with
  | nil => rfl
  | cons n rest ih =>
      simp only [List.filter_cons, List.map_cons]
      by_cases h : pred n.id
      · simp [h, ih]
      · simp [h, ih]

/-- In a duplicate-free list, the decomposition at an element is unique. -/
theorem nodup_decomp_unique : ∀ (l1 m1 : List String) (x : String) (l2 m2 : List String),
    (l1 ++ x :: l2).Nodup → l1 ++ x :: l2 = m1 ++ x :: m2 → l1 = m1 := by
  intro l1
  induction l1 with
  | nil =>
      intro m1 x l2 m2 hnd heq
      cases m1 with
      | nil => rfl
      | cons a m1t =>
          simp only [List.nil_append, List.cons_append] at heq hnd
          injection heq with h1 h2
          simp only [List.nodup_cons] at hnd
          exfalso
          apply hnd.1
          rw [h2]
          exact List.mem_append_right _ (by simp)
  | cons a l1t ih =>
      intro m1 x l2 m2 hnd heq
      cases m1 with
      | nil =>
          simp only [List.cons_append, List.nil_append] at heq
          injection heq with h1 h2
          subst h1
          simp only [List.cons_append, List.nodup_cons] at hnd
          exact absurd (List.mem_append_right l1t (by simp)) hnd.1
      | cons b m1t =>
          simp only [List.cons_append] at heq
          injection heq with h1 h2
          simp only [List.cons_append, List.nodup_cons] at hnd
          rw [h1]
          congr 1
          exact ih m1t x l2 m2 hnd.2 h2

/-- C6: with pairwise-distinct node identifiers, the evaluation sequence
(Kahn output plus appended residual cycle nodes) is a permutation of the
node ids — every identifier exactly once — and every node outside the cycle
set appears after all of its predecessors outside the cycle set. -/
theorem claim6_eval_sequence_topological (nodes : List CircuitNode)
    (connections : List Connection) (hK : (nodes.map (fun n => n.id)).Nodup) :
    (evalSequence nodes connections).Perm (nodes.map (fun n => n.id)) ∧
    (∀ l1 x l2, evalSequence nodes connections = l1 ++ x :: l2 →
      x ∉ cycleNodeIds nodes connections →
      ∀ p ∈ inAdj nodes connections x, p ∉ cycleNodeIds nodes connections →
        p ∈ l1) := by
  obtain ⟨hndks, hsubks, horder⟩ := kahnSorted_spec nodes connections hK
  have hchar := collectCycle_char nodes (kahnSorted nodes connections) [] hK
  have hseq : evalSequence nodes connections =
      kahnSorted nodes connections ++
        (nodes.filter (fun n => decide (n.id ∉ kahnSorted nodes connections))).map
          (fun n => n.id) := by
    unfold evalSequence collectCycle
    rw [hchar]
  have hcyc : cycleNodeIds nodes connections =
      (nodes.filter (fun n => decide (n.id ∉ kahnSorted nodes connections))).map
        (fun n => n.id) := by
    unfold cycleNodeIds collectCycle
    rw [hchar]
    simp
  have hA : (nodes.filter (fun n => decide (n.id ∉ kahnSorted nodes connections))).map
      (fun n => n.id) =
      (nodes.map (fun n => n.id)).filter
        (fun s => decide (s ∉ kahnSorted nodes connections)) :=
    map_id_filter nodes (fun s => s ∉ kahnSorted nodes connections)
  have hperm : (evalSequence nodes connections).Perm (nodes.map (fun n => n.id)) := by
    rw [hseq, hA]
    have h1 : (kahnSorted nodes connections).Perm
        ((nodes.map (fun n => n.id)).filter
          (fun s => decide (s ∈ kahnSorted nodes connections))) := by
      rw [List.perm_ext_iff_of_nodup hndks (List.Nodup.filter _ hK)]
      intro x
      rw [List.mem_filter]
      constructor
      · intro hx
        exact ⟨hsubks x hx, by simpa using hx⟩
      · intro hx
        simpa using hx.2
    have h2 := List.filter_append_perm
      (fun s => decide (s ∈ kahnSorted nodes connections)) (nodes.map (fun n => n.id))
    have h3 : (nodes.map (fun n => n.id)).filter
        (fun s => !(decide (s ∈ kahnSorted nodes connections))) =
        (nodes.map (fun n => n.id)).filter
          (fun s => decide (s ∉ kahnSorted nodes connections)) := by
      apply List.filter_congr
      intro s _
      simp
    refine List.Perm.trans (List.Perm.append h1 (List.Perm.refl _)) ?_
    rw [← h3]
    exact h2
  refine ⟨hperm, ?_⟩
  intro l1 x l2 hdecomp hxcyc p hp _hpcyc
  have hndseq : (evalSequence nodes connections).Nodup := hperm.symm.nodup hK
  have hxks : x ∈ kahnSorted nodes connections := by
    have hxseq : x ∈ evalSequence nodes connections := by
      rw [hdecomp]
      simp
    rw [hseq] at hxseq
    rcases List.mem_append.mp hxseq with h | h
    · exact h
    · exfalso
      apply hxcyc
      rw [hcyc]
      exact h
  obtain ⟨s, t, hks⟩ := List.append_of_mem hxks
  have hpins : p ∈ s := horder s x t hks p hp
  have hseq2 : evalSequence nodes connections =
      s ++ x :: (t ++ (nodes.filter
        (fun n => decide (n.id ∉ kahnSorted nodes connections))).map
          (fun n => n.id)) := by
    rw [hseq, hks]
    simp
  have hl1 : l1 = s := by
    apply nodup_decomp_unique l1 s x l2 _ (hdecomp ▸ hndseq)
    rw [← hdecomp, hseq2]
  rw [hl1]
  exact hpins

/-- Witness for C6 on the three-node circuit: the evaluation sequence is a
permutation of the node ids. -/
theorem claim6_eval_sequence_topological_witness :
    (parNodes.map (fun n => n.id)).Nodup ∧
    (evalSequence parNodes parConns).Perm (parNodes.map (fun n => n.id)) :=
  ⟨by decide, (claim6_eval_sequence_topological parNodes parConns (by decide)).1⟩

/-! ## The amended module round-trip -/

/-- A well-formed input terminal entry: it resolves to a node that is an
`INPUT` or an input-mode `PINBAR`. -/
def InTermOK (moduleDef : ModuleDefinition) (inId : String) : Prop :=
  ∃ n, moduleDef.nodes.find? (fun m => m.id == inId) = some n ∧
    (n.type = GateType.INPUT ∨
      (n.type = GateType.PINBAR ∧ n.pinBarMode.getD PinBarMode.input = PinBarMode.input))

/-- A well-formed output terminal entry: it resolves to a node that is an
`OUTPUT` or an output-mode `PINBAR`. -/
def OutTermOK (moduleDef : ModuleDefinition) (outId : String) : Prop :=
  ∃ n, moduleDef.nodes.find? (fun m => m.id == outId) = some n ∧
    (n.type = GateType.OUTPUT ∨
      (n.type = GateType.PINBAR ∧ n.pinBarMode = some PinBarMode.output))

/-- A successful `findIdx?` exposes the matched element. -/
theorem findIdx?_getElem? (l : List String) (p : String → Bool) (i : Nat)
    (h : l.findIdx? p = some i) : ∃ a, l[i]? = some a ∧ p a = true := by
  rw [List.findIdx?_eq_some_iff_findIdx_eq] at h
  obtain ⟨hlt, rfl⟩ := h
  refine ⟨l.get ⟨List.findIdx p l, hlt⟩, ?_, ?_⟩
  · simp [List.getElem?_eq_getElem hlt]
  · have := @List.findIdx_getElem _ p l hlt
    simpa using this

/-- Under a well-formed entry, the source's slot width (any `PINBAR` counts
its output pins, everything else counts one) agrees with the spec's. -/
theorem width_agree (moduleDef : ModuleDefinition) (inId : String)
    (h : InTermOK moduleDef inId) :
    (match moduleDef.nodes.find? (fun m => m.id == inId) with
      | some p => if p.type = GateType.PINBAR then p.outputCount else 1
      | none => 1) = specInputWidth moduleDef inId := by
  obtain ⟨n, hfind, htype⟩ := h
  unfold specInputWidth
  rw [hfind]
  rcases htype with ht | ⟨ht, hm⟩
  · have : n.type ≠ GateType.PINBAR := by rw [ht]; intro hc; cases hc
    simp [ht, this]
  · simp [ht, hm]

/-- Under well-formed entries, the source's recomputed offset equals the
spec's flattening offset. -/
theorem actualInputIdx_eq (moduleDef : ModuleDefinition)
    (hin : ∀ inId ∈ moduleDef.inputNodeIds, InTermOK moduleDef inId) (idx : Nat) :
    actualInputIdx moduleDef idx = specInputOffset moduleDef idx := by
  unfold actualInputIdx specInputOffset
  congr 1
  apply List.map_congr_left
  intro inId hmem
  exact width_agree moduleDef inId (hin inId (List.take_subset idx _ hmem))

/-- The total flattened width of a prefix of entries. -/
def specWidthSum (moduleDef : ModuleDefinition) (l : List String) : Nat :=
  (l.map (specInputWidth moduleDef)).sum

/-- Characterization of the input-flattening fold under well-formed entries:
it appends the consecutive external input bits for the widths consumed. -/
theorem buildInputs_fold (moduleDef : ModuleDefinition) (iv : List Bool) :
    ∀ (l : List String), (∀ inId ∈ l, InTermOK moduleDef inId) →
    ∀ (acc : List Bool) (start : Nat),
      l.foldl (buildInputsStep moduleDef iv) (acc, start) =
        (acc ++ (List.range (specWidthSum moduleDef l)).map
          (fun j => iv.getD (start + j) false),
         start + specWidthSum moduleDef l) := by
  intro l
  induction l with
  | nil =>
      intro _ acc start
      simp [specWidthSum]
  | cons inId rest ih =>
      intro hin acc start
      obtain ⟨n, hfind, htype⟩ := hin inId (by simp)
      have hws : specWidthSum moduleDef (inId :: rest) =
          specInputWidth moduleDef inId + specWidthSum moduleDef rest := by
        simp [specWidthSum]
      have hsplit : (List.range (specInputWidth moduleDef inId +
            specWidthSum moduleDef rest)).map (fun j => iv.getD (start + j) false) =
          (List.range (specInputWidth moduleDef inId)).map
            (fun j => iv.getD (start + j) false) ++
          (List.range (specWidthSum moduleDef rest)).map
            (fun j => iv.getD (start + specInputWidth moduleDef inId + j) false) := by
        rw [List.range_add, List.map_append, List.map_map]
        congr 1
        apply List.map_congr_left
        intro j _
        simp only [Function.comp]
        congr 1
        omega
      have hstep : buildInputsStep moduleDef iv (acc, start) inId =
          (acc ++ (List.range (specInputWidth moduleDef inId)).map
            (fun j => iv.getD (start + j) false),
           start + specInputWidth moduleDef inId) := by
        unfold buildInputsStep
        rw [hfind]
        rcases htype with ht | ⟨ht, hm⟩
        · have hnp : ¬(n.type = GateType.PINBAR) := by rw [ht]; intro hc; cases hc
          have hw : specInputWidth moduleDef inId = 1 := by
            unfold specInputWidth
            rw [hfind]
            simp [ht, hnp]
          simp only [ht, if_true, hw]
          refine Prod.ext ?_ rfl
          simp [List.range_succ]
        · have hni : ¬(n.type = GateType.INPUT) := by rw [ht]; intro hc; cases hc
          have hw : specInputWidth moduleDef inId = n.outputCount := by
            unfold specInputWidth
            rw [hfind]
            simp [ht, hni, hm]
          simp only [hni, if_false, ht, if_true, hw]
          simp
      have hrec : (inId :: rest).foldl (buildInputsStep moduleDef iv) (acc, start) =
          rest.foldl (buildInputsStep moduleDef iv)
            (buildInputsStep moduleDef iv (acc, start) inId) := rfl
      rw [hrec, hstep, ih (fun i hi => hin i (List.mem_cons_of_mem _ hi))]
      rw [hws, hsplit]
      refine Prod.ext ?_ ?_
      · simp [List.append_assoc]
      · simp only
        omega

/-- Under well-formed entries, the flattened slot vector is exactly the first
(total width) external input bits. -/
theorem buildModuleInputs_eq (moduleDef : ModuleDefinition) (iv : List Bool)
    (hin : ∀ inId ∈ moduleDef.inputNodeIds, InTermOK moduleDef inId) :
    buildModuleInputs moduleDef iv =
      (List.range (specWidthSum moduleDef moduleDef.inputNodeIds)).map
        (fun j => iv.getD j false) := by
  unfold buildModuleInputs
  rw [buildInputs_fold moduleDef iv moduleDef.inputNodeIds hin [] 0]
  simp

/-- The offset of an entry plus its width stays within the total width. -/
theorem specOffset_add_width_le (moduleDef : ModuleDefinition) (idx : Nat)
    (s : String) (hs : moduleDef.inputNodeIds[idx]? = some s) :
    specInputOffset moduleDef idx + specInputWidth moduleDef s ≤
      specWidthSum moduleDef moduleDef.inputNodeIds := by
  have hlt : idx < moduleDef.inputNodeIds.length := by
    by_contra hge
    rw [List.getElem?_eq_none (Nat.le_of_not_lt hge)] at hs
    cases hs
  have hsucc : specInputOffset moduleDef (idx + 1) =
      specInputOffset moduleDef idx + specInputWidth moduleDef s := by
    unfold specInputOffset
    rw [List.take_succ, hs]
    simp
  have hmono : specInputOffset moduleDef (idx + 1) ≤
      specWidthSum moduleDef moduleDef.inputNodeIds := by
    unfold specInputOffset specWidthSum
    calc ((moduleDef.inputNodeIds.take (idx + 1)).map (specInputWidth moduleDef)).sum
        ≤ ((moduleDef.inputNodeIds.take (idx + 1)).map (specInputWidth moduleDef)).sum +
          ((moduleDef.inputNodeIds.drop (idx + 1)).map (specInputWidth moduleDef)).sum := by
          omega
      _ = _ := by
          rw [← List.sum_append, ← List.map_append, List.take_append_drop]
  omega

/-- Under well-formed entries and distinct internal node ids, the source's
working copy of the module's nodes equals the spec's overwriting. -/
theorem internalNodes_eq_spec (moduleDef : ModuleDefinition) (iv : List Bool)
    (hnd : (moduleDef.nodes.map (fun n => n.id)).Nodup)
    (hin : ∀ inId ∈ moduleDef.inputNodeIds, InTermOK moduleDef inId) :
    internalNodesOf moduleDef (buildModuleInputs moduleDef iv) =
      specOverwriteNodes moduleDef iv := by
  unfold internalNodesOf specOverwriteNodes
  apply List.map_congr_left
  intro n hn
  have hmIV := buildModuleInputs_eq moduleDef iv hin
  cases hidx : moduleDef.inputNodeIds.findIdx? (fun x => x == n.id) with
  | none =>
      by_cases ht : n.type = GateType.INPUT
      · simp [ht, hidx]
      · by_cases hp : n.type = GateType.PINBAR ∧
            n.pinBarMode.getD PinBarMode.input = PinBarMode.input
        · simp [ht, hp, hidx]
        · simp [ht, hp, hidx]
  | some idx =>
      obtain ⟨s, hs, hps⟩ := findIdx?_getElem? _ _ _ hidx
      have hsid : s = n.id := by simpa using hps
      rw [hsid] at hs
      have hlt : idx < moduleDef.inputNodeIds.length := by
        by_contra hge
        rw [List.getElem?_eq_none (Nat.le_of_not_lt hge)] at hs
        cases hs
      have hsmem : n.id ∈ moduleDef.inputNodeIds := by
        have hs2 := hs
        rw [List.getElem?_eq_getElem hlt] at hs2
        have hgetmem := List.getElem_mem hlt
        rw [Option.some.inj hs2] at hgetmem
        exact hgetmem
      obtain ⟨m, hmfind, hmtype⟩ := hin n.id hsmem
      have hfn : moduleDef.nodes.find? (fun mm => mm.id == n.id) = some n :=
        find?_id_of_nodup moduleDef.nodes n hnd hn
      have hmn : m = n := by
        rw [hfn] at hmfind
        exact (Option.some.inj hmfind).symm
      rw [hmn] at hmtype
      have hoff := actualInputIdx_eq moduleDef hin idx
      have hbound := specOffset_add_width_le moduleDef idx n.id hs
      rcases hmtype with ht | ⟨ht, hmode⟩
      · -- INPUT terminal
        have hw : specInputWidth moduleDef n.id = 1 := by
          unfold specInputWidth
          rw [hfn]
          have hnp : n.type ≠ GateType.PINBAR := by rw [ht]; intro hc; cases hc
          simp [ht, hnp]
        rw [hw] at hbound
        have hk : specInputOffset moduleDef idx <
            specWidthSum moduleDef moduleDef.inputNodeIds := by omega
        have hget : (buildModuleInputs moduleDef iv).getD
            (actualInputIdx moduleDef idx) false =
            iv.getD (specInputOffset moduleDef idx) false := by
          rw [hmIV, hoff]
          exact mapRange_getD _ _ _ hk
        simp [ht, hidx]
        simpa [List.getD_eq_getElem?_getD] using hget
      · -- input-mode PINBAR terminal
        have hw : specInputWidth moduleDef n.id = n.outputCount := by
          unfold specInputWidth
          rw [hfn]
          have hni2 : n.type ≠ GateType.INPUT := by rw [ht]; intro hc; cases hc
          simp [ht, hni2, hmode]
        rw [hw] at hbound
        have hnotin : ¬(n.type = GateType.INPUT) := by rw [ht]; intro hc; cases hc
        have hmap : (List.range n.outputCount).map
            (fun pi => (buildModuleInputs moduleDef iv).getD
              (actualInputIdx moduleDef idx + pi) false) =
            (List.range n.outputCount).map
              (fun pi => iv.getD (specInputOffset moduleDef idx + pi) false) := by
          apply List.map_congr_left
          intro pi hpi
          have hpilt : pi < n.outputCount := List.mem_range.mp hpi
          rw [hmIV, hoff]
          exact mapRange_getD _ _ _ (by omega)
        simp [hnotin, ht, hmode, hidx]
        simpa [List.getD_eq_getElem?_getD] using hmap

/-- Under well-formed output terminals, the source's output assembly and the
spec's coincide step by step. -/
theorem readOutputs_fold_eq (moduleDef : ModuleDefinition) (outs : Outputs) :
    ∀ (l : List String), (∀ outId ∈ l, OutTermOK moduleDef outId) →
    ∀ (acc : List Bool),
      l.foldl (moduleResultStep moduleDef outs) acc =
        l.foldl (specReadStep moduleDef outs) acc := by
  intro l
  induction l with
  | nil => intro _ acc; rfl
  | cons outId rest ih =>
      intro hout acc
      obtain ⟨n, hfind, htype⟩ := hout outId (by simp)
      have hstep : moduleResultStep moduleDef outs acc outId =
          specReadStep moduleDef outs acc outId := by
        unfold moduleResultStep specReadStep
        rw [hfind]
        rcases htype with ht | ⟨ht, hmode⟩
        · have hnp : ¬(n.type = GateType.PINBAR ∧
              n.pinBarMode = some PinBarMode.output) := by
            rintro ⟨hc, _⟩
            rw [ht] at hc
            cases hc
          simp [ht, hnp]
        · have hno : ¬(n.type = GateType.OUTPUT) := by rw [ht]; intro hc; cases hc
          simp [ht, hmode, hno]
      simp only [List.foldl_cons, hstep]
      exact ih (fun i hi => hout i (List.mem_cons_of_mem _ hi)) _

/-- Under well-formed output terminals, the assembled module output equals
the spec's reading. -/
theorem moduleResult_eq_spec (moduleDef : ModuleDefinition) (outs : Outputs)
    (hout : ∀ outId ∈ moduleDef.outputNodeIds, OutTermOK moduleDef outId) :
    moduleResult moduleDef outs = specReadOutputs moduleDef outs := by
  unfold moduleResult specReadOutputs
  exact readOutputs_fold_eq moduleDef outs moduleDef.outputNodeIds hout []

/-- C3 (amended): for a module definition whose internal node ids are
distinct, whose `inputNodeIds` all resolve to `INPUT` or input-mode `PINBAR`
nodes, and whose `outputNodeIds` all resolve to `OUTPUT` or output-mode
`PINBAR` nodes, the output vector `evaluate` computes for a MODULE node
resolving to it equals the spec-side standalone evaluation: the internal
circuit with terminals overwritten by the flattened external inputs, read
back in `outputNodeIds` order.  (Without the terminal well-formedness the
claim fails — see the counterexample.) -/
theorem claim3_module_roundtrip_amended (fuel : Nat)
    (modules : List ModuleDefinition) (node : CircuitNode)
    (moduleDef : ModuleDefinition) (mid : String) (iv : List Bool)
    (hmid : node.moduleId = some mid)
    (hfind : modules.find? (fun m => m.id == mid) = some moduleDef)
    (hnd : (moduleDef.nodes.map (fun n => n.id)).Nodup)
    (hin : ∀ inId ∈ moduleDef.inputNodeIds, InTermOK moduleDef inId)
    (hout : ∀ outId ∈ moduleDef.outputNodeIds, OutTermOK moduleDef outId) :
    moduleNodeOutput (evaluateCircuitF fuel) modules node iv =
      moduleNodeOutputSpec (evaluateCircuitF fuel) modules moduleDef iv := by
  unfold moduleNodeOutput moduleNodeOutputSpec
  rw [hmid]
  simp only [Option.some_bind]
  simp only [hfind]
  rw [internalNodes_eq_spec moduleDef iv hnd hin]
  cases hres : evaluateCircuitF fuel (specOverwriteNodes moduleDef iv)
      moduleDef.connections modules none with
  | none => rfl
  | some outs =>
      simp only [Option.map_some']
      rw [moduleResult_eq_spec moduleDef outs hout]

/-- A well-formed pass-through module for the C3 witness: one INPUT terminal
wired to one OUTPUT terminal. -/
def passModuleDef : ModuleDefinition :=
  { id := "W", name := "W",
    nodes := [{ id := "wi", type := GateType.INPUT, inputCount := 0, outputCount := 1,
                inputValue := some false },
              { id := "wo", type := GateType.OUTPUT, inputCount := 1, outputCount := 0 }],
    connections := [{ id := "wc", fromNodeId := "wi", fromPinIndex := 0,
                      toNodeId := "wo", toPinIndex := 0 }],
    inputNodeIds := ["wi"], outputNodeIds := ["wo"],
    inputCount := 1, outputCount := 1 }

/-- A MODULE instance of the witness module. -/
def passModuleNode : CircuitNode :=
  { id := "pm", type := GateType.MODULE, inputCount := 1, outputCount := 1,
    moduleId := some "W" }

/-- Witness for the amended C3: on the well-formed pass-through module the
two sides agree, and feeding `true` yields `[true]`. -/
theorem claim3_module_roundtrip_amended_witness :
    moduleNodeOutput (evaluateCircuitF 2) [passModuleDef] passModuleNode [true] =
      moduleNodeOutputSpec (evaluateCircuitF 2) [passModuleDef] passModuleDef [true] ∧
    moduleNodeOutput (evaluateCircuitF 2) [passModuleDef] passModuleNode [true] =
      some [true] :=
  ⟨claim3_module_roundtrip_amended 2 [passModuleDef] passModuleNode passModuleDef "W"
      [true] rfl rfl (by decide)
      (by
        intro i hi
        rcases List.mem_singleton.mp hi with rfl
        exact ⟨_, rfl, Or.inl rfl⟩)
      (by
        intro i hi
        rcases List.mem_singleton.mp hi with rfl
        exact ⟨_, rfl, Or.inl rfl⟩),
   by decide⟩

/-! ## Termination of module recursion (bounded nesting depth) -/

/-- Module-nesting depth bound: at depth 0 no `MODULE` node of the list
resolves; at depth `k+1` every resolved module body is bounded by `k`. -/
def ModDepthLE (modules : List ModuleDefinition) : Nat → List CircuitNode → Prop
  | 0, nodes => ∀ n ∈ nodes, n.type = GateType.MODULE → ∀ mid, n.moduleId = some mid →
      modules.find? (fun m => m.id == mid) = none
  | k + 1, nodes => ∀ n ∈ nodes, n.type = GateType.MODULE →
      ∀ mid, n.moduleId = some mid →
      ∀ M, modules.find? (fun m => m.id == mid) = some M →
        ModDepthLE modules k M.nodes

/-- The overwritten working copy preserves each node's kind and module
reference. -/
theorem internalNodesOf_shape (moduleDef : ModuleDefinition) (mIV : List Bool) :
    ∀ n2 ∈ internalNodesOf moduleDef mIV,
      ∃ n1 ∈ moduleDef.nodes, n2.type = n1.type ∧ n2.moduleId = n1.moduleId := by
  intro n2 hn2
  unfold internalNodesOf at hn2
  rcases List.mem_map.mp hn2 with ⟨n1, hn1, heq⟩
  refine ⟨n1, hn1, ?_⟩
  subst heq
  by_cases ht : n1.type = GateType.INPUT
  · rw [if_pos ht]
    cases List.findIdx? (fun x => x == n1.id) moduleDef.inputNodeIds with
    | some idx => exact ⟨rfl, rfl⟩
    | none => exact ⟨rfl, rfl⟩
  · rw [if_neg ht]
    by_cases hp : n1.type = GateType.PINBAR ∧
        n1.pinBarMode.getD PinBarMode.input = PinBarMode.input
    · rw [if_pos hp]
      cases List.findIdx? (fun x => x == n1.id) moduleDef.inputNodeIds with
      | some idx => exact ⟨rfl, rfl⟩
      | none => exact ⟨rfl, rfl⟩
    · rw [if_neg hp]
      exact ⟨rfl, rfl⟩

/-- A depth bound transfers along kind/reference-preserving reshaping. -/
theorem ModDepthLE_of_shape (modules : List ModuleDefinition) (k : Nat)
    (nodes1 nodes2 : List CircuitNode)
    (hshape : ∀ n2 ∈ nodes2, ∃ n1 ∈ nodes1, n2.type = n1.type ∧ n2.moduleId = n1.moduleId)
    (h : ModDepthLE modules k nodes1) : ModDepthLE modules k nodes2 := by
  cases k with
  | zero =>
      intro n hn htype mid hmid
      obtain ⟨n1, hn1, ht, hm⟩ := hshape n hn
      exact h n1 hn1 (ht ▸ htype) mid (hm ▸ hmid)
  | succ k =>
      intro n hn htype mid hmid M hfind
      obtain ⟨n1, hn1, ht, hm⟩ := hshape n hn
      exact h n1 hn1 (ht ▸ htype) mid (hm ▸ hmid) M hfind

/-- A depth bound may be relaxed upward. -/
theorem ModDepthLE_mono (modules : List ModuleDefinition) :
    ∀ (k : Nat) (nodes : List CircuitNode), ModDepthLE modules k nodes →
      ModDepthLE modules (k + 1) nodes := by
  intro k
  induction k with
  | zero =>
      intro nodes h n hn htype mid hmid M hfind
      rw [h n hn htype mid hmid] at hfind
      cases hfind
  | succ k ih =>
      intro nodes h n hn htype mid hmid M hfind
      exact ih M.nodes (h n hn htype mid hmid M hfind)

/-- A depth bound may be relaxed to any larger bound. -/
theorem ModDepthLE_le (modules : List ModuleDefinition) (k k2 : Nat)
    (hk : k ≤ k2) (nodes : List CircuitNode) (h : ModDepthLE modules k nodes) :
    ModDepthLE modules k2 nodes := by
  induction k2 with
  | zero =>
      have hz : k = 0 := Nat.le_zero.mp hk
      exact hz ▸ h
  | succ k2 ih =>
      by_cases hke : k = k2 + 1
      · exact hke ▸ h
      · exact ModDepthLE_mono modules k2 _ (ih (by omega))

/-- A pass succeeds when every step succeeds. -/
theorem runIds_isSome (step : Outputs → String → Option Outputs)
    (ids : List String) (h : ∀ outs id, id ∈ ids → (step outs id).isSome) :
    ∀ outs, (runIds step ids outs).isSome := by
  induction ids with
  | nil => intro outs; simp [runIds]
  | cons i rest ih =>
      intro outs
      simp only [runIds]
      obtain ⟨o1, ho1⟩ := Option.isSome_iff_exists.mp (h outs i (by simp))
      rw [ho1]
      simp only [Option.some_bind]
      exact ih (fun o j hj => h o j (List.mem_cons_of_mem _ hj)) o1

/-- A node's value is defined whenever every resolved module body evaluates
successfully under the recursive evaluator. -/
theorem nodeValueF_isSome_of
    (recEval : List CircuitNode → List Connection → List ModuleDefinition →
      Option Outputs → Option Outputs)
    (connections : List Connection) (modules : List ModuleDefinition)
    (cycleSet : List String) (source frozen : Outputs) (nodeId : String)
    (node : CircuitNode)
    (hmod : node.type = GateType.MODULE →
      ∀ mid, node.moduleId = some mid →
      ∀ M, modules.find? (fun m => m.id == mid) = some M →
      ∀ iv : List Bool,
        (recEval (internalNodesOf M (buildModuleInputs M iv)) M.connections
          modules none).isSome) :
    (nodeValueF recEval connections modules cycleSet source frozen nodeId node).isSome := by
  unfold nodeValueF
  cases htype : node.type with
  | MODULE =>
      simp only
      unfold moduleNodeOutput
      cases hmid : node.moduleId with
      | none => simp
      | some mid =>
          simp only [Option.some_bind]
          cases hfind : modules.find? (fun m => m.id == mid) with
          | none => simp
          | some M =>
              simp only [Option.isSome_map']
              exact hmod htype mid hmid M hfind _
  | AND => simp
  | OR => simp
  | NOT => simp
  | INPUT => simp
  | OUTPUT => simp
  | LED => simp
  | BUTTON => simp
  | PINBAR =>
      simp only
      split <;> simp

/-- A node step is defined whenever every resolved module body evaluates
successfully. -/
theorem evalNodeF_isSome_of
    (recEval : List CircuitNode → List Connection → List ModuleDefinition →
      Option Outputs → Option Outputs)
    (nodes : List CircuitNode) (connections : List Connection)
    (modules : List ModuleDefinition) (cycleSet : List String)
    (frozen : Outputs) (isCyclePass : Bool) (outs : Outputs) (id : String)
    (hmod : ∀ node ∈ nodes, node.type = GateType.MODULE →
      ∀ mid, node.moduleId = some mid →
      ∀ M, modules.find? (fun m => m.id == mid) = some M →
      ∀ iv : List Bool,
        (recEval (internalNodesOf M (buildModuleInputs M iv)) M.connections
          modules none).isSome) :
    (evalNodeF recEval nodes connections modules cycleSet frozen isCyclePass
      outs id).isSome := by
  unfold evalNodeF
  cases hfind : nodes.find? (fun n => n.id == id) with
  | none => simp
  | some node =>
      simp only [Option.isSome_map']
      exact nodeValueF_isSome_of recEval connections modules cycleSet _ frozen id node
        (fun htype mid hmid M hfindM iv =>
          hmod node (List.mem_of_find?_eq_some hfind) htype mid hmid M hfindM iv)

/-- Binding a defined option into a total continuation is defined. -/
theorem bind_pass_isSome (p1 : Option Outputs) (f : Outputs → Option Outputs)
    (hp1 : p1.isSome) (hf : ∀ o, (f o).isSome) : (p1.bind f).isSome := by
  obtain ⟨o, ho⟩ := Option.isSome_iff_exists.mp hp1
  rw [ho]
  exact hf o

/-- One evaluation layer is defined whenever every resolved module body
evaluates successfully at the inner fuel. -/
theorem evaluateCircuitF_isSome_aux (modules : List ModuleDefinition) (fuel : Nat)
    (nodes : List CircuitNode) (connections : List Connection) (prev : Option Outputs)
    (hmod : ∀ node ∈ nodes, node.type = GateType.MODULE →
      ∀ mid, node.moduleId = some mid →
      ∀ M, modules.find? (fun m => m.id == mid) = some M →
      ∀ iv : List Bool,
        (evaluateCircuitF fuel (internalNodesOf M (buildModuleInputs M iv))
          M.connections modules none).isSome) :
    (evaluateCircuitF (fuel + 1) nodes connections modules prev).isSome := by
  simp only [evaluateCircuitF]
  apply bind_pass_isSome
  · exact runIds_isSome _ _
      (fun o i _ => evalNodeF_isSome_of _ nodes connections modules _ _ false o i hmod) _
  · intro o
    exact runIds_isSome _ _
      (fun o2 i _ => evalNodeF_isSome_of _ nodes connections modules _ _ true o2 i hmod) o

/-- Evaluation is defined at fuel one above any nesting-depth bound. -/
theorem evaluateCircuitF_isSome_of_depth (modules : List ModuleDefinition) :
    ∀ (k : Nat) (nodes : List CircuitNode) (connections : List Connection)
      (prev : Option Outputs), ModDepthLE modules k nodes →
      (evaluateCircuitF (k + 1) nodes connections modules prev).isSome := by
  intro k
  induction k with
  | zero =>
      intro nodes connections prev hdepth
      apply evaluateCircuitF_isSome_aux
      intro node hn htype mid hmid M hfind
      rw [hdepth node hn htype mid hmid] at hfind
      cases hfind
  | succ k ih =>
      intro nodes connections prev hdepth
      apply evaluateCircuitF_isSome_aux
      intro node hn htype mid hmid M hfind iv
      have hM : ModDepthLE modules k M.nodes := hdepth node hn htype mid hmid M hfind
      have hint : ModDepthLE modules k (internalNodesOf M (buildModuleInputs M iv)) :=
        ModDepthLE_of_shape modules k M.nodes _ (internalNodesOf_shape M _) hM
      exact ih _ M.connections none hint

/-- A pass is insensitive to replacing the step by one that agrees on
defined results. -/
theorem runIds_congr (step1 step2 : Outputs → String → Option Outputs)
    (h : ∀ o i, (step1 o i).isSome → step2 o i = step1 o i) :
    ∀ (ids : List String) (outs : Outputs), (runIds step1 ids outs).isSome →
      runIds step2 ids outs = runIds step1 ids outs := by
  intro ids
  induction ids with
  | nil => intro outs _; rfl
  | cons i rest ih =>
      intro outs hs
      simp only [runIds] at hs ⊢
      cases h1 : step1 outs i with
      | none =>
          rw [h1] at hs
          simp at hs
      | some o1 =>
          rw [h1] at hs
          simp only [Option.some_bind] at hs
          have h2 : step2 outs i = some o1 := (h outs i (by rw [h1]; rfl)).trans h1
          rw [h2]
          simp only [Option.some_bind]
          exact ih o1 hs

/-- A module node's output is insensitive to replacing the recursive
evaluator by one that agrees on defined results. -/
theorem moduleNodeOutput_congr
    (rec1 rec2 : List CircuitNode → List Connection → List ModuleDefinition →
      Option Outputs → Option Outputs)
    (modules : List ModuleDefinition) (node : CircuitNode) (inputValues : List Bool)
    (hrec : ∀ ns cs po, (rec1 ns cs modules po).isSome →
      rec2 ns cs modules po = rec1 ns cs modules po)
    (hs : (moduleNodeOutput rec1 modules node inputValues).isSome) :
    moduleNodeOutput rec2 modules node inputValues =
      moduleNodeOutput rec1 modules node inputValues := by
  unfold moduleNodeOutput at hs ⊢
  cases hfind : node.moduleId.bind (fun mid => modules.find? (fun m => m.id == mid)) with
  | none => rfl
  | some M =>
      simp only [hfind] at hs
      simp only [Option.isSome_map'] at hs
      exact congrArg (Option.map (moduleResult M)) (hrec _ _ _ hs)

/-- A node's value is insensitive to replacing the recursive evaluator by
one that agrees on defined results. -/
theorem nodeValueF_congr
    (rec1 rec2 : List CircuitNode → List Connection → List ModuleDefinition →
      Option Outputs → Option Outputs)
    (connections : List Connection) (modules : List ModuleDefinition)
    (cycleSet : List String) (source frozen : Outputs) (nodeId : String)
    (node : CircuitNode)
    (hrec : ∀ ns cs po, (rec1 ns cs modules po).isSome →
      rec2 ns cs modules po = rec1 ns cs modules po)
    (hs : (nodeValueF rec1 connections modules cycleSet source frozen nodeId
      node).isSome) :
    nodeValueF rec2 connections modules cycleSet source frozen nodeId node =
      nodeValueF rec1 connections modules cycleSet source frozen nodeId node := by
  unfold nodeValueF at hs ⊢
  cases htype : node.type with
  | MODULE =>
      simp only [htype] at hs
      exact moduleNodeOutput_congr rec1 rec2 modules node
        ((List.range node.inputCount).map
          (readPinValue connections cycleSet source frozen nodeId)) hrec hs
  | AND => rfl
  | OR => rfl
  | NOT => rfl
  | INPUT => rfl
  | OUTPUT => rfl
  | LED => rfl
  | BUTTON => rfl
  | PINBAR => rfl

/-- A node step is insensitive to replacing the recursive evaluator by one
that agrees on defined results. -/
theorem evalNodeF_congr
    (rec1 rec2 : List CircuitNode → List Connection → List ModuleDefinition →
      Option Outputs → Option Outputs)
    (nodes : List CircuitNode) (connections : List Connection)
    (modules : List ModuleDefinition) (cycleSet : List String)
    (frozen : Outputs) (isCyclePass : Bool) (outs : Outputs) (nodeId : String)
    (hrec : ∀ ns cs po, (rec1 ns cs modules po).isSome →
      rec2 ns cs modules po = rec1 ns cs modules po)
    (hs : (evalNodeF rec1 nodes connections modules cycleSet frozen isCyclePass
      outs nodeId).isSome) :
    evalNodeF rec2 nodes connections modules cycleSet frozen isCyclePass outs nodeId =
      evalNodeF rec1 nodes connections modules cycleSet frozen isCyclePass outs nodeId := by
  unfold evalNodeF at hs ⊢
  cases hfind : nodes.find? (fun n => n.id == nodeId) with
  | none => rfl
  | some node =>
      simp only [hfind] at hs
      simp only [Option.isSome_map'] at hs
      exact congrArg (Option.map (fun v => setOut outs nodeId v))
        (nodeValueF_congr rec1 rec2 connections modules cycleSet
          (if isCyclePass then frozen else outs) frozen nodeId node hrec hs)

/-- Agreement on defined results lifts through the two-pass bind pipeline. -/
theorem pipeline_congr (p1 p2 : Option Outputs) (f1 f2 : Outputs → Option Outputs)
    (hp : p1.isSome → p2 = p1)
    (hf : ∀ o, (f1 o).isSome → f2 o = f1 o)
    (hs : (p1.bind f1).isSome) :
    p2.bind f2 = p1.bind f1 := by
  cases p1 with
  | none => simp at hs
  | some o =>
      simp only [Option.some_bind] at hs
      rw [hp rfl]
      simp only [Option.some_bind]
      exact hf o hs

/-- Fuel monotonicity: once defined, the evaluation result does not change
when one more unit of fuel is supplied. -/
theorem evaluateCircuitF_mono :
    ∀ (fuel : Nat) (nodes : List CircuitNode) (connections : List Connection)
      (modules : List ModuleDefinition) (prev : Option Outputs),
      (evaluateCircuitF fuel nodes connections modules prev).isSome →
      evaluateCircuitF (fuel + 1) nodes connections modules prev =
        evaluateCircuitF fuel nodes connections modules prev := by
  intro fuel
  induction fuel with
  | zero =>
      intro nodes connections modules prev hs
      simp [evaluateCircuitF] at hs
  | succ fuel ih =>
      intro nodes connections modules prev hs
      have hrec : ∀ ns cs po,
          ((fun ns cs ms po => evaluateCircuitF fuel ns cs ms po) ns cs modules po).isSome →
          (fun ns cs ms po => evaluateCircuitF (fuel + 1) ns cs ms po) ns cs modules po =
            (fun ns cs ms po => evaluateCircuitF fuel ns cs ms po) ns cs modules po :=
        fun ns cs po hso => ih ns cs modules po hso
      simp only [evaluateCircuitF] at hs ⊢
      refine pipeline_congr _ _ _ _ ?_ ?_ hs
      · intro h
        exact runIds_congr _ _
          (fun o i hso => evalNodeF_congr _ _ nodes connections modules _ _ false o i
            hrec hso) _ _ h
      · intro o h
        exact runIds_congr _ _
          (fun o' i hso => evalNodeF_congr _ _ nodes connections modules _ _ true o' i
            hrec hso) _ _ h
/-- Past the point of definedness, extra fuel never changes the result. -/
theorem evaluateCircuitF_stable (k : Nat) (nodes : List CircuitNode)
    (connections : List Connection) (modules : List ModuleDefinition)
    (prev : Option Outputs)
    (hs : (evaluateCircuitF k nodes connections modules prev).isSome) :
    ∀ fuel, k ≤ fuel →
      evaluateCircuitF fuel nodes connections modules prev =
        evaluateCircuitF k nodes connections modules prev := by
  intro fuel hle
  induction fuel, hle using Nat.le_induction with
  | base => rfl
  | succ m hm ih =>
      rw [evaluateCircuitF_mono m nodes connections modules prev (by rw [ih]; exact hs), ih]

/-- A successful node step at `target` records an entry for `target` when a
node with that id exists. -/
theorem evalNodeF_writes_isSome
    (recEval : List CircuitNode → List Connection → List ModuleDefinition →
      Option Outputs → Option Outputs)
    (nodes : List CircuitNode) (connections : List Connection)
    (modules : List ModuleDefinition) (cycleSet : List String)
    (frozen : Outputs) (isCyclePass : Bool) (o r : Outputs) (target : String)
    (hfind : (nodes.find? (fun n => n.id == target)).isSome)
    (h : evalNodeF recEval nodes connections modules cycleSet frozen isCyclePass
      o target = some r) : (getOut r target).isSome := by
  unfold evalNodeF at h
  cases hf : nodes.find? (fun n => n.id == target) with
  | none => rw [hf] at hfind; simp at hfind
  | some nd =>
      rw [hf] at h
      rcases Option.map_eq_some'.mp h with ⟨v, hv, hr⟩
      subst hr
      rw [getOut_setOut_self]
      rfl

/-- A node step never erases an existing entry. -/
theorem evalNodeF_preserves_isSome
    (recEval : List CircuitNode → List Connection → List ModuleDefinition →
      Option Outputs → Option Outputs)
    (nodes : List CircuitNode) (connections : List Connection)
    (modules : List ModuleDefinition) (cycleSet : List String)
    (frozen : Outputs) (isCyclePass : Bool) (o r : Outputs) (i target : String)
    (h : evalNodeF recEval nodes connections modules cycleSet frozen isCyclePass
      o i = some r) (hsome : (getOut o target).isSome) :
    (getOut r target).isSome := by
  by_cases hit : i = target
  · subst hit
    unfold evalNodeF at h
    cases hf : nodes.find? (fun n => n.id == i) with
    | none =>
        rw [hf] at h
        cases h
        exact hsome
    | some nd =>
        rw [hf] at h
        rcases Option.map_eq_some'.mp h with ⟨v, hv, hr⟩
        subst hr
        rw [getOut_setOut_self]
        rfl
  · rw [evalNodeF_preserves recEval nodes connections modules cycleSet frozen
      isCyclePass o r i target h hit]
    exact hsome

/-- A successful pass ends with an entry for `target` if the pass processes
`target` under a step that writes it, or if an entry was already there. -/
theorem runIds_entry_isSome (step : Outputs → String → Option Outputs) (target : String)
    (hwrite : ∀ o r, step o target = some r → (getOut r target).isSome)
    (hpres : ∀ o r i, step o i = some r → (getOut o target).isSome →
      (getOut r target).isSome) :
    ∀ (ids : List String) (outs out : Outputs),
      runIds step ids outs = some out →
      (target ∈ ids ∨ (getOut outs target).isSome) → (getOut out target).isSome := by
  intro ids
  induction ids with
  | nil =>
      intro outs out hrun hmem
      rcases hmem with hmem | hmem
      · exact absurd hmem (List.not_mem_nil target)
      · simp only [runIds] at hrun
        exact (Option.some.inj hrun) ▸ hmem
  | cons i rest ih =>
      intro outs out hrun hmem
      simp only [runIds] at hrun
      rcases Option.bind_eq_some.mp hrun with ⟨o1, hstep, hrest⟩
      rcases hmem with hmem | hsome
      · rcases List.mem_cons.mp hmem with heq | hmem2
        · subst heq
          exact ih o1 out hrest (Or.inr (hwrite outs o1 hstep))
        · exact ih o1 out hrest (Or.inl hmem2)
      · exact ih o1 out hrest (Or.inr (hpres outs o1 i hstep hsome))

/-- Every node of the input list has an entry in a successful evaluation
result. -/
theorem evaluate_entries (fuel : Nat) (nodes : List CircuitNode)
    (connections : List Connection) (modules : List ModuleDefinition)
    (prev : Option Outputs) (out : Outputs)
    (h : evaluateCircuitF fuel nodes connections modules prev = some out) :
    ∀ node ∈ nodes, (getOut out node.id).isSome := by
  intro node hmem
  cases fuel with
  | zero => simp [evaluateCircuitF] at h
  | succ fuel =>
      simp only [evaluateCircuitF] at h
      rcases Option.bind_eq_some.mp h with ⟨outs1, h1, h2⟩
      have hfindS : (nodes.find? (fun n => n.id == node.id)).isSome :=
        List.find?_isSome.mpr ⟨node, hmem, by simp⟩
      by_cases hcyc : node.id ∈ cycleNodeIds nodes connections
      · exact runIds_entry_isSome _ node.id
          (fun o r hstep => evalNodeF_writes_isSome _ _ _ _ _ _ _ o r node.id
            hfindS hstep)
          (fun o r i hstep hsome => evalNodeF_preserves_isSome _ _ _ _ _ _ _ o r i
            node.id hstep hsome)
          _ _ _ h2 (Or.inl hcyc)
      · have hseq : node.id ∈ evalSequence nodes connections :=
          mem_evalSequence nodes connections node hmem
        have hacy : node.id ∈ (evalSequence nodes connections).filter
            (fun id => !((cycleNodeIds nodes connections).contains id)) := by
          refine List.mem_filter.mpr ⟨hseq, ?_⟩
          simpa using hcyc
        have h1e := runIds_entry_isSome _ node.id
          (fun o r hstep => evalNodeF_writes_isSome _ _ _ _ _ _ _ o r node.id
            hfindS hstep)
          (fun o r i hstep hsome => evalNodeF_preserves_isSome _ _ _ _ _ _ _ o r i
            node.id hstep hsome)
          _ _ _ h1 (Or.inl hacy)
        exact runIds_entry_isSome _ node.id
          (fun o r hstep => evalNodeF_writes_isSome _ _ _ _ _ _ _ o r node.id
            hfindS hstep)
          (fun o r i hstep hsome => evalNodeF_preserves_isSome _ _ _ _ _ _ _ o r i
            node.id hstep hsome)
          _ _ _ h2 (Or.inr h1e)
/-- Per-referenced-module depth bounds combine into one uniform bound over a
node list. -/
theorem uniform_depth (modules : List ModuleDefinition) :
    ∀ (nodes : List CircuitNode),
      (∀ n ∈ nodes, n.type = GateType.MODULE → ∀ mid, n.moduleId = some mid →
        ∀ M, modules.find? (fun m => m.id == mid) = some M →
          ∃ k, ModDepthLE modules k M.nodes) →
      ∃ k, ∀ n ∈ nodes, n.type = GateType.MODULE → ∀ mid, n.moduleId = some mid →
        ∀ M, modules.find? (fun m => m.id == mid) = some M →
          ModDepthLE modules k M.nodes := by
  intro nodes
  induction nodes with
  | nil =>
      intro _
      exact ⟨0, fun n hn => absurd hn (List.not_mem_nil n)⟩
  | cons n0 rest ih =>
      intro h
      obtain ⟨k1, hk1⟩ := ih (fun n hn => h n (List.mem_cons_of_mem n0 hn))
      by_cases hM : ∃ mid, n0.moduleId = some mid ∧ n0.type = GateType.MODULE ∧
          ∃ M, modules.find? (fun m => m.id == mid) = some M
      · obtain ⟨mid, hmid, ht, M, hfind⟩ := hM
        obtain ⟨k2, hk2⟩ := h n0 (List.mem_cons_self n0 rest) ht mid hmid M hfind
        refine ⟨max k1 k2, ?_⟩
        intro n hn ht' mid' hmid' M' hfind'
        rcases List.mem_cons.mp hn with heq | hmem2
        · subst heq
          rw [hmid] at hmid'
          obtain rfl := (Option.some.inj hmid').symm
          have hMM := hfind.symm.trans hfind'
          obtain rfl := (Option.some.inj hMM).symm
          exact ModDepthLE_le modules k2 (max k1 k2) (Nat.le_max_right k1 k2)
            _ hk2
        · exact ModDepthLE_le modules k1 (max k1 k2) (Nat.le_max_left k1 k2)
            M'.nodes (hk1 n hmem2 ht' mid' hmid' M' hfind')
      · refine ⟨k1, ?_⟩
        intro n hn ht' mid' hmid' M' hfind'
        rcases List.mem_cons.mp hn with heq | hmem2
        · subst heq
          exact absurd ⟨mid', hmid', ht', M', hfind'⟩ hM
        · exact hk1 n hmem2 ht' mid' hmid' M' hfind'

/-- Under an acyclic module-reference relation every stored module definition
admits a finite nesting depth bound. -/
theorem module_depth_of_acyclic (modules : List ModuleDefinition)
    (hacyc : ∀ M ∈ modules, ¬ Relation.TransGen (directRef modules) M M) :
    ∀ M ∈ modules, ∃ k, ModDepthLE modules k M.nodes := by
  have hfin : Finite {m // m ∈ modules} := (List.finite_toSet modules).to_subtype
  have hwf : WellFounded (fun A B : {m // m ∈ modules} => directRef modules B.1 A.1) := by
    have htrans : IsTrans {m // m ∈ modules}
        (Relation.TransGen (fun A B : {m // m ∈ modules} => directRef modules B.1 A.1)) :=
      ⟨fun a b c hab hbc => Relation.TransGen.trans hab hbc⟩
    have hirr : IsIrrefl {m // m ∈ modules}
        (Relation.TransGen (fun A B : {m // m ∈ modules} => directRef modules B.1 A.1)) := by
      constructor
      intro A hA
      have hswap : Relation.TransGen
          (Function.swap (fun A B : {m // m ∈ modules} => directRef modules A.1 B.1))
          A A := hA
      have h2 : Relation.TransGen
          (fun A B : {m // m ∈ modules} => directRef modules A.1 B.1) A A :=
        Relation.transGen_swap.mp hswap
      have h3 : Relation.TransGen (directRef modules) A.1 A.1 :=
        Relation.TransGen.lift (fun X : {m // m ∈ modules} => X.1) (fun a b hab => hab) h2
      exact hacyc A.1 A.2 h3
    have hwf2 : WellFounded (Relation.TransGen
        (fun A B : {m // m ∈ modules} => directRef modules B.1 A.1)) :=
      @Finite.wellFounded_of_trans_of_irrefl _ hfin _ htrans hirr
    exact Subrelation.wf
      (fun hxy => @Relation.TransGen.single _
        (fun A B : {m // m ∈ modules} => directRef modules B.1 A.1) _ _ hxy)
      hwf2
  intro M hmem
  refine hwf.induction (C := fun A : {m // m ∈ modules} =>
    ∃ k, ModDepthLE modules k A.1.nodes) ⟨M, hmem⟩ ?_
  intro A ih
  have hprem : ∀ n ∈ A.1.nodes, n.type = GateType.MODULE →
      ∀ mid, n.moduleId = some mid →
      ∀ M', modules.find? (fun m => m.id == mid) = some M' →
        ∃ k, ModDepthLE modules k M'.nodes := by
    intro n hn ht mid hmid M' hfind
    have hmem' : M' ∈ modules := List.mem_of_find?_eq_some hfind
    exact ih ⟨M', hmem'⟩ ⟨n, hn, ht, mid, hmid, hfind⟩
  obtain ⟨k, hk⟩ := uniform_depth modules A.1.nodes hprem
  exact ⟨k + 1, hk⟩

/-- **C9.** If no module definition can reach itself through a chain of
MODULE-node references (directly or transitively), evaluation terminates:
from some recursion-depth bound onward the evaluator always returns the same
concrete result map, and that map contains an entry (a boolean vector) for
every node in the input node list. -/
theorem claim9_module_acyclic_terminates
    (nodes : List CircuitNode) (connections : List Connection)
    (modules : List ModuleDefinition) (prev : Option Outputs)
    (hacyc : ∀ M ∈ modules, ¬ Relation.TransGen (directRef modules) M M) :
    ∃ k out,
      (∀ fuel, k ≤ fuel →
        evaluateCircuitF fuel nodes connections modules prev = some out) ∧
      ∀ node ∈ nodes, (getOut out node.id).isSome := by
  have hprem : ∀ n ∈ nodes, n.type = GateType.MODULE → ∀ mid, n.moduleId = some mid →
      ∀ M, modules.find? (fun m => m.id == mid) = some M →
        ∃ k, ModDepthLE modules k M.nodes :=
    fun n hn ht mid hmid M hfind =>
      module_depth_of_acyclic modules hacyc M (List.mem_of_find?_eq_some hfind)
  obtain ⟨K, hK⟩ := uniform_depth modules nodes hprem
  have hdepth : ModDepthLE modules (K + 1) nodes := hK
  have hsome := evaluateCircuitF_isSome_of_depth modules (K + 1) nodes connections
    prev hdepth
  obtain ⟨out, hout⟩ := Option.isSome_iff_exists.mp hsome
  refine ⟨K + 2, out, ?_, ?_⟩
  · intro fuel hle
    rw [evaluateCircuitF_stable (K + 2) nodes connections modules prev
      (by rw [hout]; rfl) fuel hle]
    exact hout
  · exact fun node hmem =>
      evaluate_entries (K + 2) nodes connections modules prev out hout node hmem

/-- The termination theorem instantiated on a concrete circuit with an empty
module library: the reference relation is vacuously acyclic. -/
theorem claim9_module_acyclic_terminates_witness :
    ∃ k out,
      (∀ fuel, k ≤ fuel →
        evaluateCircuitF fuel [notLoopNode] [notLoopConn] [] none = some out) ∧
      ∀ node ∈ [notLoopNode], (getOut out node.id).isSome :=
  claim9_module_acyclic_terminates [notLoopNode] [notLoopConn] [] none
    (fun M hM => absurd hM (List.not_mem_nil M))
